import Mathlib

/-!
Verification of the docx highlight redactor (`src/search_replace.py`).

The development shallowly embeds the non-CLI core of the program:

* Python exceptions are values of `PyErr`; fallible operations return
  `Except PyErr _`.
* The `xml.etree.ElementTree` tree is embedded as a heap of element
  objects (`Heap := List Obj`), a node being identified by its index.
  This mirrors the Python object model: the program's `parent_map` and
  its in-place mutations (`Element.remove`, assignments to `.text`) are
  keyed by object identity, which the heap indices represent.
* Traversals (`Element.iter`, the parent-map walk) recurse on explicit
  fuel; the fuel used (heap size, resp. parent-map size plus one) is
  sufficient on every tree-shaped heap, which is the only shape
  `ET.fromstring` can produce.  (On a cyclic heap the Python loops
  would diverge; the fuelled functions instead stop, the one point
  where the embedding is more total than the source.)
* The ZIP container is a list of entries plus a comment blob; entry
  payloads and comments are byte strings modelled as `String`.
-/

namespace Docx

/-- Python exception values raised by the code under verification.
`KeyError` is raised by dict subscription, `ValueError` by
`list.remove`, `SyntaxError` by `DocxRedactor.expand`. -/
inductive PyErr where
  | keyError (key : String)
  | valueError (msg : String)
  | syntaxError (msg : String)
  | exn (msg : String)
deriving DecidableEq

deriving instance DecidableEq for Except

/-- Python's `LookupError` class covers `KeyError` and `IndexError`;
of the exceptions this program raises only `KeyError` belongs to it.
`SyntaxError` and `ValueError` derive from `Exception` directly. -/
def PyErr.isLookupError : PyErr → Bool
  | .keyError _ => true
  | _ => false

/-- Lookup in a Python dict represented as an association list with
unique keys (the literal dicts of the source have unique keys). -/
def dictGet (d : List (String × String)) (k : String) : Option String :=
  (d.find? (fun p => p.1 == k)).map (·.2)

/-- The hardcoded namespace table of `DocxRedactor.__init__`
(`self.namespaces`), prefix to URI, in source order. -/
def docxNamespaces : List (String × String) :=
  [("m", "http://schemas.openxmlformats.org/officeDocument/2006/math"),
   ("mc", "http://schemas.openxmlformats.org/markup-compatibility/2006"),
   ("o", "urn:schemas-microsoft-com:office:office"),
   ("r", "http://schemas.openxmlformats.org/officeDocument/2006/relationships"),
   ("v", "urn:schemas-microsoft-com:vml"),
   ("w", "http://schemas.openxmlformats.org/wordprocessingml/2006/main"),
   ("w10", "urn:schemas-microsoft-com:office:word"),
   ("w14", "http://schemas.microsoft.com/office/word/2010/wordml"),
   ("wne", "http://schemas.microsoft.com/office/word/2006/wordml"),
   ("wp", "http://schemas.openxmlformats.org/drawingml/2006/wordprocessingDrawing"),
   ("wp14", "http://schemas.microsoft.com/office/word/2010/wordprocessingDrawing"),
   ("wpc", "http://schemas.microsoft.com/office/word/2010/wordprocessingCanvas"),
   ("wpg", "http://schemas.microsoft.com/office/word/2010/wordprocessingGroup"),
   ("wpi", "http://schemas.microsoft.com/office/word/2010/wordprocessingInk"),
   ("wps", "http://schemas.microsoft.com/office/word/2010/wordprocessingShape")]

/-- `str.split(sep, 1)` on a character list: split at the first
occurrence of `sep`; `none` when `sep` does not occur (in which case
the Python two-name unpacking raises `ValueError`). -/
def splitFirst (sep : Char) : List Char → Option (List Char × List Char)
  | [] => none
  | c :: rest =>
    if c = sep then some ([], rest)
    else (splitFirst sep rest).map (fun p => (c :: p.1, p.2))

/-- ElementTree's `{uri}local` qualified-name syntax, built by
`DocxRedactor.expand` via `"{%s}%s" % (uri, local)`. -/
def qn (uri loc : String) : String := "\x7b" ++ uri ++ "\x7d" ++ loc

/-- `DocxRedactor.expand`: split `"prefix:local"` at the first colon;
look the prefix up in the namespace table and build `{uri}local`.  A
missing colon raises `ValueError` (the first, uncaught unpacking); a
prefix absent from the table raises a `KeyError` that the source
catches and converts into `SyntaxError("prefix %r not found in prefix
map" % prefix)` (Python `repr` of a simple string wraps it in single
quotes). -/
def expand (ns : List (String × String)) (tag : String) : Except PyErr String :=
  match splitFirst ':' tag.data with
  | none => .error (.valueError "not enough values to unpack (expected 2, got 1)")
  | some (p, l) =>
    match dictGet ns (String.mk p) with
    | some uri => .ok (qn uri (String.mk l))
    | none =>
      .error (.syntaxError ("prefix \x27" ++ String.mk p ++ "\x27 not found in prefix map"))

/-- The wordprocessingml main namespace URI, `self.namespaces['w']`. -/
def wNS : String := "http://schemas.openxmlformats.org/wordprocessingml/2006/main"

/-- `self.expand('w:highlight')`. -/
def wHighlight : String := qn wNS "highlight"
/-- `self.expand('w:val')`. -/
def wVal : String := qn wNS "val"
/-- `self.expand('w:r')`. -/
def wR : String := qn wNS "r"
/-- `self.expand('w:p')`. -/
def wP : String := qn wNS "p"
/-- `self.expand('w:rPr')`. -/
def wRPr : String := qn wNS "rPr"
/-- `self.expand('w:pPr')`. -/
def wPPr : String := qn wNS "pPr"
/-- `self.expand('w:t')`. -/
def wT : String := qn wNS "t"

/-! ## The ElementTree heap -/

/-- An ElementTree `Element` object: tag, attribute dict, text, tail,
and the child objects in order, each referred to by heap id. -/
structure Obj where
  tag : String
  attrib : List (String × String)
  text : Option String
  tail : Option String
  children : List Nat
deriving DecidableEq

/-- The Python heap of element objects; an element is identified by
its index, mirroring object identity (the program's `parent_map` and
in-place mutations are keyed by object identity). -/
abbrev Heap := List Obj

def getObj (h : Heap) (id : Nat) : Option Obj := h[id]?

def tagOf (h : Heap) (id : Nat) : String := ((getObj h id).map Obj.tag).getD ""

def childrenOf (h : Heap) (id : Nat) : List Nat :=
  ((getObj h id).map Obj.children).getD []

def textOf (h : Heap) (id : Nat) : Option String := (getObj h id).bind Obj.text

def attrOf (h : Heap) (id : Nat) (k : String) : Option String :=
  (getObj h id).bind (fun o => dictGet o.attrib k)

/-- `Element.iter()` / `getiterator()`: document-order (preorder)
traversal, on explicit fuel.  Fuel `h.length` bounds the depth of
every tree-shaped heap, the only shape parsing can produce. -/
def iterFrom (h : Heap) : Nat → Nat → List Nat
  | 0, _ => []
  | fuel + 1, id => id :: (childrenOf h id).flatMap (iterFrom h fuel)

/-- `elem.iter(tag)`: the document-order elements of the subtree
(including `elem` itself) whose tag equals `tag`. -/
def iterTag (h : Heap) (id : Nat) (t : String) : List Nat :=
  (iterFrom h h.length id).filter (fun i => tagOf h i == t)

/-- `dict((c, p) for p in self.root.getiterator() for c in p)` built
by `DocxRedactor.open`.  In a Python dict comprehension a later pair
overwrites an earlier one with the same key, hence the last-wins
lookup `pmLookup`. -/
def buildParentMap (h : Heap) (root : Nat) : List (Nat × Nat) :=
  (iterFrom h h.length root).flatMap
    (fun p => (childrenOf h p).map (fun c => (c, p)))

/-- `self.parent_map[elem]`, as an `Option`: `none` models the
`KeyError` branch the caller catches. -/
def pmLookup (pm : List (Nat × Nat)) (c : Nat) : Option Nat :=
  (pm.reverse.find? (fun e => e.1 == c)).map (·.2)

/-! ## Highlight query engine -/

/-- `list(self.root.iter(self.expand('w:highlight')))`. -/
def allHighlights (h : Heap) (root : Nat) : List Nat := iterTag h root wHighlight

/-- `list(filter(lambda h: h.attrib[attribute] == color, highlights))`:
the attribute subscription raises `KeyError` at the first highlight
lacking `w:val`. -/
def filterByColor (h : Heap) (c : String) : List Nat → Except PyErr (List Nat)
  | [] => .ok []
  | i :: is =>
    match attrOf h i wVal with
    | none => .error (.keyError wVal)
    | some v =>
      (filterByColor h c is).map (fun rest => if v == c then i :: rest else rest)

/-- `DocxRedactor.get_highlights`. -/
def get_highlights (h : Heap) (root : Nat) : Option String → Except PyErr (List Nat)
  | none => .ok (allHighlights h root)
  | some c => filterByColor h c (allHighlights h root)

/-- `map(lambda h: h.attrib[self.expand('w:val')], highlights)` as
forced by `frozenset(...)`: the color of every highlight, failing with
`KeyError` at the first highlight lacking the attribute. -/
def colorsOf (h : Heap) : List Nat → Except PyErr (List String)
  | [] => .ok []
  | i :: is =>
    match attrOf h i wVal with
    | none => .error (.keyError wVal)
    | some v => (colorsOf h is).map (fun vs => v :: vs)

/-- Code-point lexicographic comparison of character lists — the
order Python's `sorted` uses on `str` and the order underlying Lean's
`String` instances (`List.lt` made executable). -/
def charListLt : List Char → List Char → Bool
  | [], [] => false
  | [], _ :: _ => true
  | _ :: _, [] => false
  | c :: cs, d :: ds =>
    if c < d then true else if d < c then false else charListLt cs ds

/-- Lexicographic `<` on strings, as Python's `sorted` compares. -/
def strLt (s t : String) : Bool := charListLt s.data t.data

/-- Insertion into a strictly ascending duplicate-free list. -/
def insertSortedNoDup (s : String) : List String → List String
  | [] => [s]
  | t :: ts =>
    if s == t then t :: ts
    else if strLt s t then s :: t :: ts
    else t :: insertSortedNoDup s ts

/-- `sorted(frozenset(l))` for strings: the distinct members in
strictly ascending lexicographic order. -/
def sortedDedup (l : List String) : List String := l.foldr insertSortedNoDup []

/-- `DocxRedactor.get_all_colors`. -/
def get_all_colors (h : Heap) (root : Nat) : Except PyErr (List String) :=
  (colorsOf h (allHighlights h root)).map sortedDedup

/-! ## Parent walk and redaction -/

/-- The `while True` walk of
`DocxRedactor.get_run_or_paragraph_for_highlight`: follow parent
links; return the first ancestor tagged `w:r` or `w:p`; a missing
parent-map entry (`KeyError`, caught in the source) yields `none`.
The fuel `pm.length + 1` outlasts every chain of distinct parent-map
keys; a longer chain revisits a key, on which the Python loop would
never terminate. -/
def findRunOrParagraph (pm : List (Nat × Nat)) (h : Heap) :
    Nat → Nat → Option Nat
  | 0, _ => none
  | fuel + 1, id =>
    match pmLookup pm id with
    | none => none
    | some par =>
      if tagOf h par == wR || tagOf h par == wP then some par
      else findRunOrParagraph pm h fuel par

/-- `DocxRedactor.get_run_or_paragraph_for_highlight`. -/
def get_run_or_paragraph_for_highlight (pm : List (Nat × Nat)) (h : Heap)
    (hl : Nat) : Option Nat :=
  findRunOrParagraph pm h (pm.length + 1) hl

/-- `text_node.text = text`. -/
def setText (h : Heap) (id : Nat) (s : String) : Heap :=
  match getObj h id with
  | some o => h.set id { o with text := some s }
  | none => h

/-- `elem.remove(child)`: delete the first occurrence of the object
from the direct children; `list.remove` raises `ValueError` when the
object is not a direct child. -/
def removeChild (h : Heap) (id cid : Nat) : Except PyErr Heap :=
  match getObj h id with
  | some o =>
    if cid ∈ o.children then
      .ok (h.set id { o with children := o.children.erase cid })
    else .error (.valueError "list.remove(x): x not in list")
  | none => .error (.valueError "list.remove(x): x not in list")

/-- `for rPr in rPrs: elem.remove(rPr)` over a snapshot list taken
before any removal. -/
def removeFound (id : Nat) : List Nat → Heap → Except PyErr Heap
  | [], h => .ok h
  | c :: cs, h => do
    let h1 ← removeChild h id c
    removeFound id cs h1

/-- `for text_node in elem.iter(...): text_node.text = text`.  The
source iterates lazily, but assigning `.text` does not alter the
traversal structure, so iterating over the snapshot is equivalent. -/
def setTexts (s : String) : List Nat → Heap → Heap
  | [], h => h
  | t :: ts, h => setTexts s ts (setText h t s)

/-- `DocxRedactor.replace_text_in_run_or_paragraph`: on a `w:r`
element remove every `w:rPr` found in its subtree, on a `w:p` element
every `w:pPr`, then overwrite the text of every `w:t` in the subtree
with the replacement. -/
def replace_text_in_run_or_paragraph (h : Heap) (id : Nat) (s : String) :
    Except PyErr Heap :=
  match (if tagOf h id == wR
      then removeFound id (iterTag h id wRPr) h else .ok h) with
  | .error e => .error e
  | .ok h1 =>
    match (if tagOf h1 id == wP
        then removeFound id (iterTag h1 id wPPr) h1 else .ok h1) with
    | .error e => .error e
    | .ok h2 => .ok (setTexts s (iterTag h2 id wT) h2)

/-- The loop body of `DocxRedactor.redact` over the highlight
snapshot: a highlight whose container does not resolve is counted as
skipped (the source prints one diagnostic line per skip) and the loop
continues with the rest. -/
def redactLoop (pm : List (Nat × Nat)) (repl : String) :
    List Nat → Heap → Nat → Except PyErr (Heap × Nat)
  | [], h, skipped => .ok (h, skipped)
  | hl :: rest, h, skipped =>
    match get_run_or_paragraph_for_highlight pm h hl with
    | none => redactLoop pm repl rest h (skipped + 1)
    | some run => do
      let h1 ← replace_text_in_run_or_paragraph h run repl
      redactLoop pm repl rest h1 skipped

/-- `DocxRedactor.redact`. -/
def redact (h : Heap) (root : Nat) (pm : List (Nat × Nat))
    (color repl : String) : Except PyErr (Heap × Nat) := do
  let hls ← get_highlights h root (some color)
  redactLoop pm repl hls h 0

/-! ## Namespace-preserving serialization -/

/-- Assignment `d[k] = v` on a Python dict held as an association list
with unique keys: overwrite in place or append. -/
def dictInsert (d : List (String × String)) (k v : String) :
    List (String × String) :=
  if d.any (fun p => p.1 == k) then
    d.map (fun p => if p.1 == k then (k, v) else p)
  else d ++ [(k, v)]

/-- The `flipped` URI-to-prefix dict that `replace_namespaces_method`
builds from the hardcoded table and substitutes for the namespace
component of `ET._namespaces`, so that serialization declares exactly
the table's prefixes. -/
def flipNamespaces (ns : List (String × String)) : List (String × String) :=
  ns.foldl (fun d kv => dictInsert d kv.2 kv.1) []

/-- CPython's reserved serializer alias shape `ns0, ns1, ...`
(`re.match("ns\\d+$", prefix)`). -/
def isAutoAlias (s : String) : Bool :=
  s.take 2 == "ns" && s.drop 2 != "" && (s.drop 2).data.all Char.isDigit

/-- The well-known prefixes CPython preloads into
`ET._namespace_map`, URI to prefix. -/
def etDefaultNamespaceMap : List (String × String) :=
  [("http://www.w3.org/XML/1998/namespace", "xml"),
   ("http://www.w3.org/1999/xhtml", "html"),
   ("http://www.w3.org/1999/02/22-rdf-syntax-ns#", "rdf"),
   ("http://schemas.xmlsoap.org/wsdl/", "wsdl"),
   ("http://www.w3.org/2001/XMLSchema", "xs"),
   ("http://www.w3.org/2001/XMLSchema-instance", "xsi"),
   ("http://purl.org/dc/elements/1.1/", "dc")]

/-- `ET.register_namespace(prefix, uri)`: reject the reserved `ns<n>`
prefix shape, drop entries colliding on either side, then record
`uri -> prefix`; this map supplies the prefix each qualified tag is
written with. -/
def register_namespace (m : List (String × String)) (pfx uri : String) :
    Except PyErr (List (String × String)) :=
  if isAutoAlias pfx then
    .error (.valueError "Prefix format reserved for internal use")
  else
    .ok ((m.filter (fun p => p.1 != uri && p.2 != pfx)) ++ [(uri, pfx)])

/-- The registration loop of `DocxRedactor.__init__`:
`for prefix, uri in self.namespaces.items(): ET.register_namespace(prefix, uri)`. -/
def registerAllNamespaces : Except PyErr (List (String × String)) :=
  docxNamespaces.foldlM (fun m kv => register_namespace m kv.1 kv.2)
    etDefaultNamespaceMap

/-- The state of `ET._namespace_map` after `DocxRedactor.__init__`. -/
def etNamespaceMapAfterInit : List (String × String) :=
  registerAllNamespaces.toOption.getD []

/-- The prefix a serializer consulting the URI-to-prefix map writes a
qualified name `{uri}local` with: `pfx:local` for a mapped URI.  (For
an unmapped URI CPython would fall back to a generated `ns<n>` alias;
with the override of `replace_namespaces_method` installed, such a
URI has no declaration at all — claim C9 only concerns inputs whose
URIs are in the table.) -/
def et_qname (flip : List (String × String)) (t : String) : String :=
  match splitFirst '\x7d' t.data with
  | some (u, l) =>
    match u with
    | '\x7b' :: uri =>
      match dictGet flip (String.mk uri) with
      | some pfx => pfx ++ ":" ++ String.mk l
      | none => String.mk l
    | _ => t
  | none => t

/-- Model of `ET.tostring(root)` under the process-wide override
installed by `replace_namespaces_method`: write each element with the
prefix the flipped table assigns to its namespace URI.  Character
escaping and the placement of the `xmlns` declarations are not
modelled; the claims about `save` treat the serialized payload as an
opaque function of the tree. -/
def et_serialize (h : Heap) (flip : List (String × String)) :
    Nat → Nat → String
  | 0, _ => ""
  | fuel + 1, id =>
    match getObj h id with
    | none => ""
    | some o =>
      "<" ++ et_qname flip o.tag ++
        (o.attrib.foldl
          (fun s p => s ++ " " ++ et_qname flip p.1 ++ "=\x22" ++ p.2 ++ "\x22") "") ++
        ">" ++ (o.text.getD "") ++
        ((childrenOf h id).foldl (fun s c => s ++ et_serialize h flip fuel c) "") ++
        "</" ++ et_qname flip o.tag ++ ">" ++ (o.tail.getD "")

/-- `ET.tostring(self.root)` as called by `DocxRedactor.save`. -/
def et_tostring (h : Heap) (root : Nat) : String :=
  et_serialize h (flipNamespaces docxNamespaces) h.length root

/-! ## The ZIP container -/

/-- The metadata of one archive entry (`zipfile.ZipInfo`): the entry
name plus the rest (compression method, timestamps, attributes),
opaque here. -/
structure ZipInfo where
  filename : String
  meta : String
deriving DecidableEq

/-- One named member of the archive: metadata and byte payload. -/
structure ZipEntry where
  info : ZipInfo
  data : String
deriving DecidableEq

/-- The archive: ordered entries plus the archive-level comment. -/
structure ZipArchive where
  entries : List ZipEntry
  comment : String
deriving DecidableEq

/-- `ZipFile.read(name)`: the name resolves through `NameToInfo`,
where for a duplicated name the last entry wins. -/
def readByName (a : ZipArchive) (n : String) : Option String :=
  (a.entries.reverse.find? (fun e => e.info.filename == n)).map (·.data)

/-- `ZipFile.getinfo(name)`, raising `KeyError` for an absent name. -/
def getinfo (a : ZipArchive) (n : String) : Except PyErr ZipInfo :=
  match a.entries.reverse.find? (fun e => e.info.filename == n) with
  | some e => .ok e.info
  | none => .error (.keyError n)

/-- `update_zip(zipname, zip_info, data)`: rebuild the archive copying
every entry whose name differs from the target (payload fetched with
`read`, i.e. by name), preserving the comment, then append the target
entry's new data under its original metadata. -/
def update_zip (a : ZipArchive) (zi : ZipInfo) (d : String) : ZipArchive :=
  { entries :=
      (a.entries.filter (fun e => e.info.filename != zi.filename)).map
        (fun e => { info := e.info, data := (readByName a e.info.filename).getD "" }) ++
      [{ info := zi, data := d }],
    comment := a.comment }

/-- The fields of a `DocxRedactor` that a successful `open` fills in:
the metadata of the `word/document.xml` entry, the parsed tree (heap
plus root id), and the parent map built over it. -/
structure RedactorState where
  doc_info : ZipInfo
  heap : Heap
  root : Nat
  parent_map : List (Nat × Nat)

/-- What `DocxRedactor.open` guarantees about the state it produces on
archive `a`, short of a byte-level XML parser: `doc_info` is the
`getinfo` result for `word/document.xml` (whose payload the tree was
parsed from) and the parent map is the one built over the parsed
tree. -/
def OpenedFrom (a : ZipArchive) (st : RedactorState) : Prop :=
  getinfo a "word/document.xml" = .ok st.doc_info ∧
  st.parent_map = buildParentMap st.heap st.root

/-- `DocxRedactor.save`: serialize the current tree with
`ET.tostring` and splice it into the archive with `update_zip` under
the metadata captured at `open`. -/
def save (st : RedactorState) (a : ZipArchive) : ZipArchive :=
  update_zip a st.doc_info (et_tostring st.heap st.root)

/-- Shape facts every mutation performed by `redact(color, repl)`
preserves: the heap size, every object's tag and attributes; children
lists only ever lose elements (removal of override children), and an
object's text either survives or has been overwritten with the
replacement. -/
def MutStep (repl : String) (h h' : Heap) : Prop :=
  h'.length = h.length
  ∧ (∀ x, tagOf h' x = tagOf h x)
  ∧ (∀ x k, attrOf h' x k = attrOf h x k)
  ∧ (∀ x, (childrenOf h' x).Sublist (childrenOf h x))
  ∧ (∀ x, textOf h' x = textOf h x ∨ textOf h' x = some repl)

/-- The post-state claim C2 asserts for one resolved container: a run
carries no `w:rPr` child any more, a paragraph no `w:pPr` child, and
every `w:t` element of the container's subtree reads the
replacement. -/
def Redacted (repl : String) (h : Heap) (cont : Nat) : Prop :=
  (tagOf h cont = wR → ∀ ch ∈ childrenOf h cont, tagOf h ch ≠ wRPr)
  ∧ (tagOf h cont = wP → ∀ ch ∈ childrenOf h cont, tagOf h ch ≠ wPPr)
  ∧ (∀ t ∈ iterTag h cont wT, textOf h t = some repl)

/-! ## Concrete example documents

The scenario document of spec section 8: two runs in a body, one
holding a yellow highlight and the text `secret1`, the other a green
highlight and `secret2`. -/

/-- Heap of the two-run scenario document.  Ids: 0 body, 1 first run,
2 its rPr, 3 its text, 4 second run, 5 yellow highlight (inside
object 2), 6 second rPr, 7 second text, 8 green highlight (inside
object 6). -/
def twoRunDoc : Heap :=
  [⟨qn wNS "body", [], none, none, [1, 4]⟩,
   ⟨wR, [], none, none, [2, 3]⟩,
   ⟨wRPr, [], none, none, [5]⟩,
   ⟨wT, [], some "secret1", none, []⟩,
   ⟨wR, [], none, none, [6, 7]⟩,
   ⟨wHighlight, [(wVal, "yellow")], none, none, []⟩,
   ⟨wRPr, [], none, none, [8]⟩,
   ⟨wT, [], some "secret2", none, []⟩,
   ⟨wHighlight, [(wVal, "green")], none, none, []⟩]

/-- The parent map `open` builds over `twoRunDoc`. -/
def twoRunPm : List (Nat × Nat) := buildParentMap twoRunDoc 0

/-- `twoRunDoc` after `redact('yellow', '[X]')`: the yellow run (1)
lost its run-properties child (2) and its text leaf (3) reads the
replacement; the green run (4) and everything below it are
untouched. -/
def twoRunDocAfter : Heap :=
  [⟨qn wNS "body", [], none, none, [1, 4]⟩,
   ⟨wR, [], none, none, [3]⟩,
   ⟨wRPr, [], none, none, [5]⟩,
   ⟨wT, [], some "[X]", none, []⟩,
   ⟨wR, [], none, none, [6, 7]⟩,
   ⟨wHighlight, [(wVal, "yellow")], none, none, []⟩,
   ⟨wRPr, [], none, none, [8]⟩,
   ⟨wT, [], some "secret2", none, []⟩,
   ⟨wHighlight, [(wVal, "green")], none, none, []⟩]

/-- A document in which highlights of two colors share one enclosing
container: a paragraph 0 whose paragraph properties (1) carry a
yellow highlight (3, inside the paragraph-mark run properties 2),
while the run 4 inside the same paragraph carries a green highlight
(6) and the text `secret2` (7). -/
def overlapDoc : Heap :=
  [⟨wP, [], none, none, [1, 4]⟩,
   ⟨wPPr, [], none, none, [2]⟩,
   ⟨wRPr, [], none, none, [3]⟩,
   ⟨wHighlight, [(wVal, "yellow")], none, none, []⟩,
   ⟨wR, [], none, none, [5, 7]⟩,
   ⟨wRPr, [], none, none, [6]⟩,
   ⟨wHighlight, [(wVal, "green")], none, none, []⟩,
   ⟨wT, [], some "secret2", none, []⟩]

/-- The parent map `open` builds over `overlapDoc`. -/
def overlapPm : List (Nat × Nat) := buildParentMap overlapDoc 0

/-- The heap of `overlapDoc` after `redact('yellow', 'X')`: the
paragraph properties (1) are detached and the text leaf 7 — inside
the green highlight's own run — is overwritten. -/
def overlapDocAfter : Heap :=
  [⟨wP, [], none, none, [4]⟩,
   ⟨wPPr, [], none, none, [2]⟩,
   ⟨wRPr, [], none, none, [3]⟩,
   ⟨wHighlight, [(wVal, "yellow")], none, none, []⟩,
   ⟨wR, [], none, none, [5, 7]⟩,
   ⟨wRPr, [], none, none, [6]⟩,
   ⟨wHighlight, [(wVal, "green")], none, none, []⟩,
   ⟨wT, [], some "X", none, []⟩]

/-- A malformed document whose single yellow highlight (1) sits
directly under the body, with no run or paragraph ancestor. -/
def strayDoc : Heap :=
  [⟨qn wNS "body", [], none, none, [1]⟩,
   ⟨wHighlight, [(wVal, "yellow")], none, none, []⟩]

/-- The parent map `open` builds over `strayDoc`. -/
def strayPm : List (Nat × Nat) := buildParentMap strayDoc 0

/-- A document whose single highlight marker (1) lacks the `w:val`
attribute. -/
def noValDoc : Heap :=
  [⟨qn wNS "body", [], none, none, [1]⟩,
   ⟨wHighlight, [], none, none, []⟩]

/-- A three-entry sample archive. -/
def exArchive : ZipArchive :=
  { entries :=
      [⟨⟨"[Content_Types].xml", "deflate-a"⟩, "types-bytes"⟩,
       ⟨⟨"word/document.xml", "deflate-b"⟩, "doc-bytes"⟩,
       ⟨⟨"word/styles.xml", "stored-c"⟩, "styles-bytes"⟩],
    comment := "original comment" }

/-- A state `open` can produce on `exArchive`: the document metadata
from `getinfo` plus the two-run tree. -/
def exState : RedactorState :=
  { doc_info := ⟨"word/document.xml", "deflate-b"⟩,
    heap := twoRunDoc,
    root := 0,
    parent_map := twoRunPm }

/-! ## Theorems -/

theorem expand_w_val : expand docxNamespaces "w:val" = .ok wVal := by rfl

theorem expand_w_highlight : expand docxNamespaces "w:highlight" = .ok wHighlight := by
  rfl

/-- Splitting a list with the separator spliced in recovers the parts,
provided the first part avoids the separator. -/
theorem splitFirst_append (sep : Char) (p l : List Char) (hp : sep ∉ p) :
    splitFirst sep (p ++ sep :: l) = some (p, l) := by
  induction p with
  | nil => simp [splitFirst]
  | cons c cs ih =>
    have hc : c ≠ sep := fun h => hp (h ▸ List.mem_cons_self c cs)
    have hcs : sep ∉ cs := fun h => hp (List.mem_cons_of_mem c h)
    simp [splitFirst, hc, ih hcs]

/-- What `expand` does on a shorthand `"pfx:loc"` whose part before
the first colon is `pfx`: success with `{uri}loc` when the table binds
`pfx` to `uri`, and otherwise a `SyntaxError` whose message contains
the unknown prefix between quotes. -/
theorem expand_split (pfx loc : String) (hp : ':' ∉ pfx.data) :
    (dictGet docxNamespaces pfx = none →
      expand docxNamespaces (pfx ++ ":" ++ loc) =
        .error (.syntaxError ("prefix \x27" ++ pfx ++ "\x27 not found in prefix map")))
    ∧ (∀ uri, dictGet docxNamespaces pfx = some uri →
      expand docxNamespaces (pfx ++ ":" ++ loc) = .ok (qn uri loc)) := by
  obtain ⟨pd⟩ := pfx
  obtain ⟨ld⟩ := loc
  have hdata : (String.mk pd ++ ":" ++ String.mk ld).data = pd ++ ':' :: ld := by
    simp [String.data_append]
  constructor
  · intro hnone
    simp only [expand, hdata, splitFirst_append ':' pd ld hp, hnone]
  · intro uri hsome
    simp only [expand, hdata, splitFirst_append ':' pd ld hp, hsome]

/-- Claim C8, counterexample to the claim as stated: for the shorthand
`"zz:t"`, whose prefix `zz` is not in the table, `expand` fails with a
`SyntaxError` — which is not a `LookupError`-class condition (Python's
`LookupError` covers `KeyError`/`IndexError` only; the source catches
the dict `KeyError` and re-raises `SyntaxError`). -/
theorem c8_counterexample :
    expand docxNamespaces "zz:t" =
      .error (.syntaxError "prefix \x27zz\x27 not found in prefix map")
    ∧ PyErr.isLookupError
        (.syntaxError "prefix \x27zz\x27 not found in prefix map") = false :=
  ⟨rfl, rfl⟩

/-- Claim C8 (amended): for every shorthand whose prefix is not a key
of the namespace table, `expand` fails with a `SyntaxError` — not a
`LookupError`-class condition — whose message names the unknown
prefix; for every prefix in the table, `expand` returns the qualified
name `{uri}local` built from the table URI and the local name. -/
theorem c8_expand_unknown_pfx (pfx loc : String) (hp : ':' ∉ pfx.data) :
    (dictGet docxNamespaces pfx = none →
      expand docxNamespaces (pfx ++ ":" ++ loc) =
        .error (.syntaxError ("prefix \x27" ++ pfx ++ "\x27 not found in prefix map"))
      ∧ PyErr.isLookupError
          (.syntaxError ("prefix \x27" ++ pfx ++ "\x27 not found in prefix map")) = false)
    ∧ (∀ uri, dictGet docxNamespaces pfx = some uri →
        expand docxNamespaces (pfx ++ ":" ++ loc) = .ok (qn uri loc)) :=
  ⟨fun h => ⟨(expand_split pfx loc hp).1 h, rfl⟩, (expand_split pfx loc hp).2⟩

/-- Witness for `c8_expand_unknown_pfx`, at the unknown prefix `zz`
and the table prefix `w`. -/
theorem c8_expand_unknown_pfx_witness :
    expand docxNamespaces ("zz" ++ ":" ++ "t") =
      .error (.syntaxError ("prefix \x27" ++ "zz" ++ "\x27 not found in prefix map"))
    ∧ expand docxNamespaces ("w" ++ ":" ++ "val") = .ok (qn wNS "val") :=
  ⟨((c8_expand_unknown_pfx "zz" "t" (by decide)).1 rfl).1,
   (c8_expand_unknown_pfx "w" "val" (by decide)).2 wNS rfl⟩

/-! ### Highlight queries (C5, C6, C10) -/

/-- `colorsOf` raises `KeyError` whenever some listed highlight lacks
the `w:val` attribute. -/
theorem colorsOf_error_of_missing (h : Heap) (l : List Nat) (i : Nat)
    (hi : i ∈ l) (hmiss : attrOf h i wVal = none) :
    colorsOf h l = .error (.keyError wVal) := by
  induction l with
  | nil => cases hi
  | cons j js ih =>
    rcases List.mem_cons.mp hi with rfl | hm
    · simp [colorsOf, hmiss]
    · cases hj : attrOf h j wVal with
      | none => simp [colorsOf, hj]
      | some v => simp [colorsOf, hj, ih hm, Except.map]

/-- `filterByColor` raises `KeyError` whenever some listed highlight
lacks the `w:val` attribute. -/
theorem filterByColor_error_of_missing (h : Heap) (c : String) (l : List Nat)
    (i : Nat) (hi : i ∈ l) (hmiss : attrOf h i wVal = none) :
    filterByColor h c l = .error (.keyError wVal) := by
  induction l with
  | nil => cases hi
  | cons j js ih =>
    rcases List.mem_cons.mp hi with rfl | hm
    · simp [filterByColor, hmiss]
    · cases hj : attrOf h j wVal with
      | none => simp [filterByColor, hj]
      | some v => simp [filterByColor, hj, ih hm, Except.map]

/-- Claim C10: on a document tree containing a highlight marker that
lacks the `w:val` color attribute, `get_all_colors` and
color-filtered `get_highlights` raise `KeyError` (the unguarded
`h.attrib[...]` subscription) instead of skipping or reporting the
marker. -/
theorem c10_missing_val_raises (h : Heap) (root : Nat) (i : Nat)
    (hi : i ∈ allHighlights h root) (hmiss : attrOf h i wVal = none) :
    get_all_colors h root = .error (.keyError wVal)
    ∧ ∀ c, get_highlights h root (some c) = .error (.keyError wVal) := by
  constructor
  · unfold get_all_colors
    rw [colorsOf_error_of_missing h _ i hi hmiss]
    rfl
  · intro c
    unfold get_highlights
    exact filterByColor_error_of_missing h c _ i hi hmiss

/-- Witness for `c10_missing_val_raises` on `noValDoc`, whose
highlight 1 has no attributes. -/
theorem c10_missing_val_raises_witness :
    (1 ∈ allHighlights noValDoc 0 ∧ attrOf noValDoc 1 wVal = none)
    ∧ get_all_colors noValDoc 0 = .error (.keyError wVal)
    ∧ get_highlights noValDoc 0 (some "yellow") = .error (.keyError wVal) :=
  ⟨⟨by decide, rfl⟩,
   (c10_missing_val_raises noValDoc 0 1 (by decide) rfl).1,
   (c10_missing_val_raises noValDoc 0 1 (by decide) rfl).2 "yellow"⟩

/-- `filterByColor` on a list of highlights that all carry `w:val` is
the pure color filter, in list order. -/
theorem filterByColor_ok (h : Heap) (c : String) (l : List Nat)
    (hall : ∀ i ∈ l, attrOf h i wVal ≠ none) :
    filterByColor h c l =
      .ok (l.filter (fun i => decide (attrOf h i wVal = some c))) := by
  induction l with
  | nil => rfl
  | cons j js ih =>
    cases hv : attrOf h j wVal with
    | none => exact absurd hv (hall j (List.mem_cons_self j js))
    | some v =>
      have ihr := ih (fun i hi => hall i (List.mem_cons_of_mem j hi))
      by_cases hvc : v = c
      · subst hvc
        simp [filterByColor, hv, ihr, List.filter_cons, Except.map]
      · simp [filterByColor, hv, ihr, List.filter_cons, hvc, Except.map]

/-- Claim C5: `get_highlights` with no color returns all highlight
markers in document order (`allHighlights` is the preorder traversal
filtered by tag); with a color it returns exactly the sub-sequence of
those whose `w:val` attribute string-equals the color, case-sensitive
and unnormalized — provided every marker carries the attribute (the
data-model invariant; a missing attribute raises instead, claim
C10). -/
theorem c5_get_highlights_color_filter (h : Heap) (root : Nat) (c : String)
    (hall : ∀ i ∈ allHighlights h root, attrOf h i wVal ≠ none) :
    get_highlights h root none = .ok (allHighlights h root)
    ∧ get_highlights h root (some c) =
        .ok ((allHighlights h root).filter
          (fun i => decide (attrOf h i wVal = some c)))
    ∧ ((allHighlights h root).filter
        (fun i => decide (attrOf h i wVal = some c))).Sublist
          (allHighlights h root) :=
  ⟨rfl, filterByColor_ok h c (allHighlights h root) hall,
   List.filter_sublist _⟩

/-- Witness for `c5_get_highlights_color_filter` on the two-run
document: the yellow filter keeps exactly highlight 5 of [5, 8]. -/
theorem c5_get_highlights_color_filter_witness :
    (∀ i ∈ allHighlights twoRunDoc 0, attrOf twoRunDoc i wVal ≠ none)
    ∧ get_highlights twoRunDoc 0 none = .ok [5, 8]
    ∧ get_highlights twoRunDoc 0 (some "yellow") = .ok [5] := by
  refine ⟨by decide, ?_, ?_⟩
  · rw [(c5_get_highlights_color_filter twoRunDoc 0 "yellow" (by decide)).1]
    rfl
  · rw [(c5_get_highlights_color_filter twoRunDoc 0 "yellow" (by decide)).2.1]
    rfl

/-- `charListLt` decides the lexicographic order underlying
`String`'s order instances. -/
theorem charListLt_iff (l m : List Char) : charListLt l m = true ↔ l < m := by
  induction l generalizing m with
  | nil =>
    cases m with
    | nil =>
      simp only [charListLt, Bool.false_eq_true, false_iff]
      intro hl
      cases hl
    | cons d ds =>
      simp only [charListLt, true_iff]
      exact List.Lex.nil
  | cons c cs ih =>
    cases m with
    | nil =>
      simp only [charListLt, Bool.false_eq_true, false_iff]
      intro hl
      cases hl
    | cons d ds =>
      by_cases hcd : c < d
      · simp only [charListLt, hcd, if_true, true_iff]
        exact List.Lex.rel hcd
      · by_cases hdc : d < c
        · simp only [charListLt, hcd, if_false, hdc, if_true,
            Bool.false_eq_true, false_iff]
          intro hl
          cases hl with
          | cons _ => exact lt_irrefl _ hdc
          | rel hlt => exact hcd hlt
        · have hceq : c = d := le_antisymm (not_lt.mp hdc) (not_lt.mp hcd)
          subst hceq
          simp only [charListLt, hcd, if_false, hdc, ih ds]
          constructor
          · intro hl
            exact List.Lex.cons hl
          · intro hl
            cases hl with
            | cons hrest => exact hrest
            | rel hlt => exact absurd hlt hcd

/-- `strLt` decides `String`'s `<`. -/
theorem strLt_iff (s t : String) : strLt s t = true ↔ s < t := by
  rw [String.lt_iff_toList_lt]
  exact charListLt_iff s.data t.data

theorem insertSortedNoDup_eq_of_eq (s : String) (ts : List String) :
    insertSortedNoDup s (s :: ts) = s :: ts := by
  simp [insertSortedNoDup]

theorem insertSortedNoDup_eq_of_lt (s t : String) (ts : List String)
    (hst : s ≠ t) (hlt : s < t) :
    insertSortedNoDup s (t :: ts) = s :: t :: ts := by
  simp [insertSortedNoDup, hst, (strLt_iff s t).mpr hlt]

theorem insertSortedNoDup_eq_of_gt (s t : String) (ts : List String)
    (hst : s ≠ t) (hlt : ¬s < t) :
    insertSortedNoDup s (t :: ts) = t :: insertSortedNoDup s ts := by
  have hf : strLt s t = false := by
    cases hb : strLt s t
    · rfl
    · exact absurd ((strLt_iff s t).mp hb) hlt
  simp [insertSortedNoDup, hst, hf]

theorem insertSortedNoDup_mem (s a : String) (l : List String) :
    a ∈ insertSortedNoDup s l ↔ a = s ∨ a ∈ l := by
  induction l with
  | nil => simp [insertSortedNoDup]
  | cons t ts ih =>
    by_cases hst : s = t
    · subst hst
      rw [insertSortedNoDup_eq_of_eq]
      simp only [List.mem_cons]
      tauto
    · by_cases hlt : s < t
      · rw [insertSortedNoDup_eq_of_lt s t ts hst hlt]
        simp only [List.mem_cons]
      · rw [insertSortedNoDup_eq_of_gt s t ts hst hlt]
        simp only [List.mem_cons, ih]
        tauto

theorem insertSortedNoDup_pairwise (s : String) (l : List String)
    (hl : l.Pairwise (· < ·)) : (insertSortedNoDup s l).Pairwise (· < ·) := by
  induction l with
  | nil => simp [insertSortedNoDup]
  | cons t ts ih =>
    rcases List.pairwise_cons.mp hl with ⟨ht, hts⟩
    by_cases hst : s = t
    · subst hst
      rw [insertSortedNoDup_eq_of_eq]
      exact hl
    · by_cases hlt : s < t
      · rw [insertSortedNoDup_eq_of_lt s t ts hst hlt]
        refine List.pairwise_cons.mpr ⟨?_, hl⟩
        intro b hb
        rcases List.mem_cons.mp hb with rfl | hbts
        · exact hlt
        · exact lt_trans hlt (ht b hbts)
      · have hts' : t < s := by
          rcases lt_trichotomy s t with hc | hc | hc
          · exact absurd hc hlt
          · exact absurd hc hst
          · exact hc
        rw [insertSortedNoDup_eq_of_gt s t ts hst hlt]
        refine List.pairwise_cons.mpr ⟨?_, ih hts⟩
        intro b hb
        rcases (insertSortedNoDup_mem s b ts).mp hb with rfl | hbts
        · exact hts'
        · exact ht b hbts

theorem sortedDedup_mem (a : String) (l : List String) :
    a ∈ sortedDedup l ↔ a ∈ l := by
  induction l with
  | nil => simp [sortedDedup]
  | cons t ts ih =>
    rw [show sortedDedup (t :: ts) = insertSortedNoDup t (sortedDedup ts) from rfl,
      insertSortedNoDup_mem]
    simp [ih]

theorem sortedDedup_pairwise (l : List String) :
    (sortedDedup l).Pairwise (· < ·) := by
  induction l with
  | nil => simp [sortedDedup]
  | cons t ts ih => exact insertSortedNoDup_pairwise t _ ih

/-- `colorsOf` on a list of highlights that all carry `w:val` yields
exactly their colors, in order. -/
theorem colorsOf_ok (h : Heap) (l : List Nat)
    (hall : ∀ i ∈ l, attrOf h i wVal ≠ none) :
    colorsOf h l = .ok (l.filterMap (fun i => attrOf h i wVal)) := by
  induction l with
  | nil => rfl
  | cons j js ih =>
    cases hv : attrOf h j wVal with
    | none => exact absurd hv (hall j (List.mem_cons_self j js))
    | some v =>
      simp [colorsOf, hv, ih (fun i hi => hall i (List.mem_cons_of_mem j hi)),
        Except.map, List.filterMap_cons]

/-- Claim C6: with every highlight carrying `w:val` (the data-model
invariant; a marker without it raises instead, claim C10),
`get_all_colors` returns the colors of the highlight markers
deduplicated and strictly ascending in the lexicographic string
order; a document with no highlight markers yields `.ok []` rather
than an error; and the call is a pure function of the document state,
so two calls with no intervening mutation coincide. -/
theorem c6_get_all_colors_sorted (h : Heap) (root : Nat)
    (hall : ∀ i ∈ allHighlights h root, attrOf h i wVal ≠ none) :
    get_all_colors h root =
      .ok (sortedDedup ((allHighlights h root).filterMap
        (fun i => attrOf h i wVal)))
    ∧ (sortedDedup ((allHighlights h root).filterMap
        (fun i => attrOf h i wVal))).Pairwise (· < ·)
    ∧ (∀ a, a ∈ sortedDedup ((allHighlights h root).filterMap
        (fun i => attrOf h i wVal)) ↔
          ∃ i ∈ allHighlights h root, attrOf h i wVal = some a)
    ∧ (sortedDedup ((allHighlights h root).filterMap
        (fun i => attrOf h i wVal))).Nodup
    ∧ (allHighlights h root = [] → get_all_colors h root = .ok [])
    ∧ get_all_colors h root = get_all_colors h root := by
  refine ⟨?_, sortedDedup_pairwise _, ?_, ?_, ?_, rfl⟩
  · unfold get_all_colors
    rw [colorsOf_ok h _ hall]
    rfl
  · intro a
    rw [sortedDedup_mem, List.mem_filterMap]
  · exact (sortedDedup_pairwise _).imp (fun hlt => ne_of_lt hlt)
  · intro hempty
    unfold get_all_colors
    rw [hempty]
    rfl

/-- Witness for `c6_get_all_colors_sorted` on the two-run document:
the colors come back deduplicated and ascending. -/
theorem c6_get_all_colors_sorted_witness :
    (∀ i ∈ allHighlights twoRunDoc 0, attrOf twoRunDoc i wVal ≠ none)
    ∧ get_all_colors twoRunDoc 0 = .ok ["green", "yellow"] := by
  refine ⟨by decide, ?_⟩
  rw [(c6_get_all_colors_sorted twoRunDoc 0 (by decide)).1]
  decide

/-! ### The parent walk and skipped highlights (C7) -/

/-- A redaction loop whose every highlight fails to resolve skips
them all: the heap comes back unchanged and every skip is counted. -/
theorem redactLoop_all_skipped (pm : List (Nat × Nat)) (repl : String) :
    ∀ (l : List Nat) (h : Heap) (n : Nat),
      (∀ hl ∈ l, get_run_or_paragraph_for_highlight pm h hl = none) →
      redactLoop pm repl l h n = .ok (h, n + l.length) := by
  intro l
  induction l with
  | nil =>
    intro h n _
    simp [redactLoop]
  | cons hl rest ih =>
    intro h n hall
    simp only [redactLoop, hall hl (List.mem_cons_self hl rest)]
    rw [ih h (n + 1) (fun x hx => hall x (List.mem_cons_of_mem hl hx))]
    simp only [List.length_cons]
    have hlen : n + 1 + rest.length = n + (rest.length + 1) := by omega
    rw [hlen]

/-- Claim C7: a highlight whose parent-link walk reaches an element
with no parent-map entry before meeting a run or paragraph resolves
to `none` rather than raising (the source catches the `KeyError`),
and `redact` treats each such highlight as a skipped, reported
diagnostic and continues: on a document whose every color-`c`
highlight is unresolvable, `redact` completes, reports one skip per
highlight, and returns the heap unmodified. -/
theorem c7_unresolvable_skipped (pm : List (Nat × Nat)) (h : Heap) (root : Nat)
    (c repl : String) (hls : List Nat)
    (hget : get_highlights h root (some c) = .ok hls)
    (hall : ∀ hl ∈ hls, get_run_or_paragraph_for_highlight pm h hl = none) :
    redact h root pm c repl = .ok (h, hls.length)
    ∧ ∀ x, pmLookup pm x = none →
        get_run_or_paragraph_for_highlight pm h x = none := by
  constructor
  · unfold redact
    rw [hget]
    have hloop := redactLoop_all_skipped pm repl hls h 0 hall
    simpa using hloop
  · intro x hx
    unfold get_run_or_paragraph_for_highlight
    simp [findRunOrParagraph, hx]

/-- Witness for `c7_unresolvable_skipped` on `strayDoc`, whose only
highlight sits directly under the body. -/
theorem c7_unresolvable_skipped_witness :
    (get_highlights strayDoc 0 (some "yellow") = .ok [1]
      ∧ get_run_or_paragraph_for_highlight strayPm strayDoc 1 = none)
    ∧ redact strayDoc 0 strayPm "yellow" "X" = .ok (strayDoc, 1) := by
  refine ⟨⟨by decide, by decide⟩, ?_⟩
  exact (c7_unresolvable_skipped strayPm strayDoc 0 "yellow" "X" [1]
    (by decide) (by decide)).1

/-! ### Archive surgery (C1, C4) -/

/-- In a list of entries with pairwise distinct names, `find?` by an
entry's own name returns that entry. -/
theorem find?_entry_of_nodup (l : List ZipEntry) (e : ZipEntry)
    (hnd : (l.map (fun x => x.info.filename)).Nodup) (he : e ∈ l) :
    l.find? (fun x => x.info.filename == e.info.filename) = some e := by
  induction l with
  | nil => cases he
  | cons x xs ih =>
    rw [List.map_cons, List.nodup_cons] at hnd
    rcases List.mem_cons.mp he with rfl | hm
    · exact List.find?_cons_of_pos xs (by simp)
    · have hx : (x.info.filename == e.info.filename) = false := by
        rw [beq_eq_false_iff_ne]
        intro hcontra
        exact hnd.1 (hcontra ▸ List.mem_map.mpr ⟨e, hm, rfl⟩)
      rw [List.find?_cons_of_neg xs (by simp [hx])]
      exact ih hnd.2 hm

/-- Under unique entry names, reading an entry by its own name
returns its payload. -/
theorem readByName_eq (a : ZipArchive)
    (hnd : (a.entries.map (fun e => e.info.filename)).Nodup)
    (e : ZipEntry) (he : e ∈ a.entries) :
    readByName a e.info.filename = some e.data := by
  unfold readByName
  have hnd' : (a.entries.reverse.map (fun x => x.info.filename)).Nodup := by
    rw [List.map_reverse, List.nodup_reverse]
    exact hnd
  rw [find?_entry_of_nodup a.entries.reverse e hnd' (List.mem_reverse.mpr he)]
  rfl

/-- A successful `getinfo` returns metadata carrying the requested
name. -/
theorem getinfo_ok_name (a : ZipArchive) (n : String) (zi : ZipInfo)
    (hok : getinfo a n = .ok zi) : zi.filename = n := by
  unfold getinfo at hok
  cases hfind : a.entries.reverse.find? (fun e => e.info.filename == n) with
  | none =>
    rw [hfind] at hok
    cases hok
  | some e0 =>
    rw [hfind] at hok
    injection hok with heq
    have hb := List.find?_some hfind
    rw [beq_iff_eq] at hb
    rw [← heq]
    exact hb

/-- Under unique entry names, `getinfo` returns the metadata of the
one entry carrying the name. -/
theorem getinfo_of_mem (a : ZipArchive) (n : String)
    (hnd : (a.entries.map (fun e => e.info.filename)).Nodup)
    (e0 : ZipEntry) (he0 : e0 ∈ a.entries) (hn : e0.info.filename = n) :
    getinfo a n = .ok e0.info := by
  have hnd' : (a.entries.reverse.map (fun x => x.info.filename)).Nodup := by
    rw [List.map_reverse, List.nodup_reverse]
    exact hnd
  unfold getinfo
  rw [← hn, find?_entry_of_nodup a.entries.reverse e0 hnd'
    (List.mem_reverse.mpr he0)]

/-- `update_zip` preserves the comment and rewrites the entry list to
the other entries, in their order and verbatim, followed by the new
target entry. -/
theorem update_zip_spec (a : ZipArchive) (zi : ZipInfo) (d : String)
    (hnd : (a.entries.map (fun e => e.info.filename)).Nodup) :
    (update_zip a zi d).comment = a.comment
    ∧ (update_zip a zi d).entries =
        a.entries.filter (fun e => e.info.filename != zi.filename)
          ++ [⟨zi, d⟩] := by
  refine ⟨rfl, ?_⟩
  show (a.entries.filter (fun e => e.info.filename != zi.filename)).map
      (fun e => ⟨e.info, (readByName a e.info.filename).getD ""⟩) ++ [⟨zi, d⟩] =
    a.entries.filter (fun e => e.info.filename != zi.filename) ++ [⟨zi, d⟩]
  congr 1
  have hpt : ∀ e ∈ a.entries.filter (fun e => e.info.filename != zi.filename),
      (⟨e.info, (readByName a e.info.filename).getD ""⟩ : ZipEntry) = id e := by
    intro e hefil
    rw [readByName_eq a hnd e (List.mem_of_mem_filter hefil)]
    rfl
  rw [List.map_congr_left hpt, List.map_id]

/-- What `save` does to the container, given what `open` recorded:
comment preserved; entries rewritten to the non-target entries in
order followed by the re-serialized document part under its original
metadata. -/
theorem save_entries_eq (a : ZipArchive) (st : RedactorState)
    (hopen : OpenedFrom a st)
    (hnd : (a.entries.map (fun e => e.info.filename)).Nodup) :
    (save st a).comment = a.comment
    ∧ (save st a).entries =
        a.entries.filter (fun e => e.info.filename != "word/document.xml")
          ++ [⟨st.doc_info, et_tostring st.heap st.root⟩] := by
  have hname : st.doc_info.filename = "word/document.xml" :=
    getinfo_ok_name a _ st.doc_info hopen.1
  obtain ⟨hc, he⟩ :=
    update_zip_spec a st.doc_info (et_tostring st.heap st.root) hnd
  rw [hname] at he
  exact ⟨hc, he⟩

/-- Claim C4: on every save of an open document, every archive entry
other than `word/document.xml` is carried into the rewritten archive
verbatim — same payload under its original metadata, in the original
relative order — the archive comment is preserved, and only the
`word/document.xml` entry's bytes change (re-serialized from the
tree, appended under the metadata captured at open). -/
theorem c4_save_preserves_other_entries (a : ZipArchive) (st : RedactorState)
    (hopen : OpenedFrom a st)
    (hnd : (a.entries.map (fun e => e.info.filename)).Nodup) :
    (save st a).comment = a.comment
    ∧ (save st a).entries =
        a.entries.filter (fun e => e.info.filename != "word/document.xml")
          ++ [⟨st.doc_info, et_tostring st.heap st.root⟩] :=
  save_entries_eq a st hopen hnd

/-- Witness for `c4_save_preserves_other_entries` on the three-entry
sample archive. -/
theorem c4_save_preserves_other_entries_witness :
    (save exState exArchive).comment = "original comment"
    ∧ (save exState exArchive).entries =
        [⟨⟨"[Content_Types].xml", "deflate-a"⟩, "types-bytes"⟩,
         ⟨⟨"word/styles.xml", "stored-c"⟩, "styles-bytes"⟩,
         ⟨⟨"word/document.xml", "deflate-b"⟩, et_tostring twoRunDoc 0⟩] := by
  have hspec := c4_save_preserves_other_entries exArchive exState
    ⟨by decide, rfl⟩ (by decide)
  refine ⟨hspec.1.trans rfl, hspec.2.trans ?_⟩
  rfl

/-- Claim C1: opening an archive and saving with no intervening
mutation yields a container whose comment and whose entries — names,
bytes, compression metadata — match the original: every entry other
than `word/document.xml` is present exactly as before, and
`word/document.xml` is present under its original metadata with the
`ET.tostring` re-serialization of the tree parsed at open as its
bytes.  (The rebuild appends the target entry at the end, so the
entry sequence's order is the one aspect not preserved; the claim's
enumerated aspects do not include it.) -/
theorem c1_roundtrip_identity (a : ZipArchive) (st : RedactorState)
    (hopen : OpenedFrom a st)
    (hnd : (a.entries.map (fun e => e.info.filename)).Nodup) :
    (save st a).comment = a.comment
    ∧ (∀ e : ZipEntry,
        (e ∈ (save st a).entries ∧ e.info.filename ≠ "word/document.xml") ↔
        (e ∈ a.entries ∧ e.info.filename ≠ "word/document.xml"))
    ∧ (save st a).entries.filter
        (fun e => e.info.filename == "word/document.xml") =
        [⟨st.doc_info, et_tostring st.heap st.root⟩]
    ∧ (∀ e0 ∈ a.entries, e0.info.filename = "word/document.xml" →
        e0.info = st.doc_info) := by
  obtain ⟨hc, he⟩ := save_entries_eq a st hopen hnd
  have hname : st.doc_info.filename = "word/document.xml" :=
    getinfo_ok_name a _ st.doc_info hopen.1
  refine ⟨hc, ?_, ?_, ?_⟩
  · intro e
    rw [he]
    constructor
    · rintro ⟨hm, hne⟩
      rcases List.mem_append.mp hm with hf | hd
      · exact ⟨List.mem_of_mem_filter hf, hne⟩
      · rw [List.mem_singleton] at hd
        subst hd
        exact absurd hname hne
    · rintro ⟨hm, hne⟩
      refine ⟨List.mem_append.mpr (Or.inl ?_), hne⟩
      exact List.mem_filter.mpr ⟨hm, bne_iff_ne.mpr hne⟩
  · rw [he, List.filter_append]
    have hnil : (a.entries.filter
        (fun e => e.info.filename != "word/document.xml")).filter
        (fun e => e.info.filename == "word/document.xml") = [] := by
      rw [List.filter_eq_nil_iff]
      intro e hef
      have hne := bne_iff_ne.mp (List.mem_filter.mp hef).2
      simp [hne]
    rw [hnil]
    simp [hname]
  · intro e0 he0 hn0
    have hg := getinfo_of_mem a "word/document.xml" hnd e0 he0 hn0
    rw [hopen.1] at hg
    injection hg with heq
    exact heq.symm

/-- Witness for `c1_roundtrip_identity` on the three-entry sample
archive: the styles entry survives verbatim, the comment survives,
and the document entry keeps its metadata with the re-serialized
bytes. -/
theorem c1_roundtrip_identity_witness :
    (save exState exArchive).comment = exArchive.comment
    ∧ (⟨⟨"word/styles.xml", "stored-c"⟩, "styles-bytes"⟩ : ZipEntry) ∈
        (save exState exArchive).entries
    ∧ (save exState exArchive).entries.filter
        (fun e => e.info.filename == "word/document.xml") =
        [⟨⟨"word/document.xml", "deflate-b"⟩, et_tostring twoRunDoc 0⟩] := by
  have hth := c1_roundtrip_identity exArchive exState ⟨by decide, rfl⟩ (by decide)
  refine ⟨hth.1, ?_, ?_⟩
  · exact ((hth.2.1 _).mpr ⟨by decide, by decide⟩).1
  · rw [hth.2.2.1]
    rfl

/-! ### Namespace fidelity (C9) -/

/-- A qualified name whose URI the flipped table maps is serialized
with the mapped prefix. -/
theorem et_qname_mapped (flip : List (String × String)) (uri loc pfx : String)
    (hbrace : '\x7d' ∉ uri.data) (hlk : dictGet flip uri = some pfx) :
    et_qname flip (qn uri loc) = pfx ++ ":" ++ loc := by
  obtain ⟨ud⟩ := uri
  obtain ⟨ld⟩ := loc
  have hdata : (qn (String.mk ud) (String.mk ld)).data
      = '\x7b' :: (ud ++ '\x7d' :: ld) := by
    simp [qn, String.data_append]
  have hsplit : splitFirst '\x7d' ('\x7b' :: (ud ++ '\x7d' :: ld))
      = some ('\x7b' :: ud, ld) := by
    rw [show splitFirst '\x7d' ('\x7b' :: (ud ++ '\x7d' :: ld))
        = (splitFirst '\x7d' (ud ++ '\x7d' :: ld)).map
            (fun p => ('\x7b' :: p.1, p.2)) from by simp [splitFirst]]
    rw [splitFirst_append '\x7d' ud ld hbrace]
    rfl
  unfold et_qname
  rw [hdata, hsplit]
  simp only [hlk]

/-- Claim C9: the URI-to-prefix resolution installed by
`replace_namespaces_method` (the flipped table used for the `xmlns`
declarations) and the `register_namespace` loop (the map qualified
tags are written with) both send every namespace URI of the fixed
table to exactly the prefix the table binds it to; a qualified name
over a table URI is therefore serialized under that prefix, and no
auto-generated `ns<n>` alias occurs anywhere in either map — so none
appears in the output of a document whose URIs are the documented
ones. -/
theorem c9_namespace_fidelity :
    (∀ pq ∈ docxNamespaces,
      dictGet (flipNamespaces docxNamespaces) pq.2 = some pq.1
      ∧ dictGet etNamespaceMapAfterInit pq.2 = some pq.1
      ∧ isAutoAlias pq.1 = false
      ∧ ∀ loc : String,
          et_qname (flipNamespaces docxNamespaces) (qn pq.2 loc) =
            pq.1 ++ ":" ++ loc)
    ∧ registerAllNamespaces = .ok etNamespaceMapAfterInit
    ∧ (flipNamespaces docxNamespaces).all (fun p => !isAutoAlias p.2) = true
    ∧ etNamespaceMapAfterInit.all (fun p => !isAutoAlias p.2) = true := by
  have base : ∀ pq ∈ docxNamespaces,
      dictGet (flipNamespaces docxNamespaces) pq.2 = some pq.1
      ∧ dictGet etNamespaceMapAfterInit pq.2 = some pq.1
      ∧ isAutoAlias pq.1 = false
      ∧ '\x7d' ∉ pq.2.data := by decide
  refine ⟨fun pq hpq => ?_, by rfl, by decide, by decide⟩
  obtain ⟨h1, h2, h3, h4⟩ := base pq hpq
  exact ⟨h1, h2, h3, fun loc => et_qname_mapped _ _ loc _ h4 h1⟩

/-- Witness for `c9_namespace_fidelity` at the main wordprocessingml
URI: its qualified names serialize under the prefix `w`. -/
theorem c9_namespace_fidelity_witness :
    (("w", wNS) ∈ docxNamespaces)
    ∧ et_qname (flipNamespaces docxNamespaces) (qn wNS "p") = "w" ++ ":" ++ "p"
    ∧ isAutoAlias "w" = false := by
  refine ⟨by decide, ?_, rfl⟩
  exact ((c9_namespace_fidelity.1 ("w", wNS) (by decide)).2.2.2) "p"

/-! ### Heap mutation basics (C2, C3) -/

theorem getObj_lt_of_some (h : Heap) (x : Nat) (o : Obj)
    (hx : getObj h x = some o) : x < h.length := by
  by_contra hge
  rw [show getObj h x = none from List.getElem?_eq_none (by omega)] at hx
  cases hx

theorem tagOf_valid (h : Heap) (x : Nat) (t : String)
    (hx : tagOf h x = t) (ht : t ≠ "") : x < h.length := by
  cases ho : getObj h x with
  | none =>
    simp only [tagOf, ho, Option.map_none, Option.getD_none] at hx
    exact absurd hx.symm ht
  | some o => exact getObj_lt_of_some h x o ho

theorem setText_getObj_ne (h : Heap) (id : Nat) (s : String) (y : Nat)
    (hy : y ≠ id) : getObj (setText h id s) y = getObj h y := by
  unfold setText
  cases ho : getObj h id with
  | none => rfl
  | some o => exact List.getElem?_set_ne (Ne.symm hy)

theorem setText_getObj_self (h : Heap) (id : Nat) (s : String) (o : Obj)
    (ho : getObj h id = some o) :
    getObj (setText h id s) id = some { o with text := some s } := by
  unfold setText
  rw [ho]
  exact List.getElem?_set_self (getObj_lt_of_some h id o ho)

theorem setText_eq_of_none (h : Heap) (id : Nat) (s : String)
    (ho : getObj h id = none) : setText h id s = h := by
  unfold setText
  rw [ho]

theorem setText_tagOf (h : Heap) (id : Nat) (s : String) (y : Nat) :
    tagOf (setText h id s) y = tagOf h y := by
  by_cases hy : y = id
  · subst hy
    cases ho : getObj h y with
    | none => rw [setText_eq_of_none h y s ho]
    | some o =>
      unfold tagOf
      rw [setText_getObj_self h y s o ho, ho]
      rfl
  · unfold tagOf
    rw [setText_getObj_ne h id s y hy]

theorem setText_childrenOf (h : Heap) (id : Nat) (s : String) (y : Nat) :
    childrenOf (setText h id s) y = childrenOf h y := by
  by_cases hy : y = id
  · subst hy
    cases ho : getObj h y with
    | none => rw [setText_eq_of_none h y s ho]
    | some o =>
      unfold childrenOf
      rw [setText_getObj_self h y s o ho, ho]
      rfl
  · unfold childrenOf
    rw [setText_getObj_ne h id s y hy]

theorem setText_attrOf (h : Heap) (id : Nat) (s : String) (y : Nat)
    (k : String) : attrOf (setText h id s) y k = attrOf h y k := by
  by_cases hy : y = id
  · subst hy
    cases ho : getObj h y with
    | none => rw [setText_eq_of_none h y s ho]
    | some o =>
      unfold attrOf
      rw [setText_getObj_self h y s o ho, ho]
      rfl
  · unfold attrOf
    rw [setText_getObj_ne h id s y hy]

theorem setText_length (h : Heap) (id : Nat) (s : String) :
    (setText h id s).length = h.length := by
  unfold setText
  cases getObj h id with
  | none => rfl
  | some o => exact List.length_set h id _

theorem setText_textOf (h : Heap) (id : Nat) (s : String) (y : Nat) :
    textOf (setText h id s) y = textOf h y
    ∨ textOf (setText h id s) y = some s := by
  by_cases hy : y = id
  · subst hy
    cases ho : getObj h y with
    | none =>
      rw [setText_eq_of_none h y s ho]
      exact Or.inl rfl
    | some o =>
      refine Or.inr ?_
      unfold textOf
      rw [setText_getObj_self h y s o ho]
      rfl
  · rw [show textOf (setText h id s) y = textOf h y from by
      unfold textOf; rw [setText_getObj_ne h id s y hy]]
    exact Or.inl rfl

theorem setText_textOf_self (h : Heap) (id : Nat) (s : String)
    (hv : id < h.length) : textOf (setText h id s) id = some s := by
  cases ho : getObj h id with
  | none =>
    unfold getObj at ho
    rw [List.getElem?_eq_getElem hv] at ho
    cases ho
  | some o =>
    unfold textOf
    rw [setText_getObj_self h id s o ho]
    rfl

theorem removeChild_ok (h : Heap) (id cid : Nat) (h' : Heap)
    (hok : removeChild h id cid = .ok h') :
    cid ∈ childrenOf h id
    ∧ childrenOf h' id = (childrenOf h id).erase cid
    ∧ (∀ y, y ≠ id → getObj h' y = getObj h y)
    ∧ (∀ y, tagOf h' y = tagOf h y)
    ∧ (∀ y, textOf h' y = textOf h y)
    ∧ (∀ y k, attrOf h' y k = attrOf h y k)
    ∧ h'.length = h.length := by
  unfold removeChild at hok
  cases ho : getObj h id with
  | none =>
    rw [ho] at hok
    cases hok
  | some o =>
    rw [ho] at hok
    replace hok : (if cid ∈ o.children then
        Except.ok (h.set id { o with children := o.children.erase cid })
        else Except.error (PyErr.valueError "list.remove(x): x not in list"))
        = Except.ok h' := hok
    by_cases hmem : cid ∈ o.children
    · rw [if_pos hmem] at hok
      injection hok with hok
      subst hok
      have hv := getObj_lt_of_some h id o ho
      have hself : getObj (h.set id { o with children := o.children.erase cid }) id
          = some { o with children := o.children.erase cid } :=
        List.getElem?_set_self hv
      have hne : ∀ y, y ≠ id →
          getObj (h.set id { o with children := o.children.erase cid }) y
            = getObj h y := fun y hy => List.getElem?_set_ne (Ne.symm hy)
      have hch : childrenOf h id = o.children := by
        unfold childrenOf
        rw [ho]
        rfl
      refine ⟨hch ▸ hmem, ?_, hne, ?_, ?_, ?_, List.length_set h id _⟩
      · unfold childrenOf
        rw [hself, ho]
        rfl
      · intro y
        by_cases hy : y = id
        · subst hy
          unfold tagOf
          rw [hself, ho]
          rfl
        · unfold tagOf
          rw [hne y hy]
      · intro y
        by_cases hy : y = id
        · subst hy
          unfold textOf
          rw [hself, ho]
          rfl
        · unfold textOf
          rw [hne y hy]
      · intro y k
        by_cases hy : y = id
        · subst hy
          unfold attrOf
          rw [hself, ho]
          rfl
        · unfold attrOf
          rw [hne y hy]
    · rw [if_neg hmem] at hok
      cases hok

theorem except_bind_ok {α β : Type} (a : α) (f : α → Except PyErr β) :
    (Except.ok a >>= f) = f a := rfl

theorem except_bind_error {α β : Type} (e : PyErr) (f : α → Except PyErr β) :
    ((Except.error e : Except PyErr α) >>= f) = Except.error e := rfl

/-- What a successful removal pass (`for x in found: elem.remove(x)`)
did: every removal found its object among the target's children, so
for each id the surviving occurrences plus the occurrences removed
equal the original occurrences; all other objects and all fields but
the target's children are untouched. -/
theorem removeFound_ok (id : Nat) :
    ∀ (found : List Nat) (h h' : Heap), removeFound id found h = .ok h' →
      (∀ x, List.count x (childrenOf h' id) + List.count x found
          = List.count x (childrenOf h id))
      ∧ (∀ y, y ≠ id → getObj h' y = getObj h y)
      ∧ (∀ y, tagOf h' y = tagOf h y)
      ∧ (∀ y, textOf h' y = textOf h y)
      ∧ (∀ y k, attrOf h' y k = attrOf h y k)
      ∧ (∀ y, (childrenOf h' y).Sublist (childrenOf h y))
      ∧ h'.length = h.length := by
  intro found
  induction found with
  | nil =>
    intro h h' hok
    unfold removeFound at hok
    injection hok with hok
    subst hok
    exact ⟨fun x => by simp, fun y _ => rfl, fun y => rfl, fun y => rfl,
      fun y k => rfl, fun y => List.Sublist.refl _, rfl⟩
  | cons c cs ih =>
    intro h h' hok
    unfold removeFound at hok
    cases hrc : removeChild h id c with
    | error e =>
      rw [hrc, except_bind_error] at hok
      cases hok
    | ok h1 =>
      rw [hrc, except_bind_ok] at hok
      obtain ⟨hcmem, hch1, hne1, htag1, htxt1, hattr1, hlen1⟩ :=
        removeChild_ok h id c h1 hrc
      obtain ⟨hcount, hne2, htag2, htxt2, hattr2, hsub2, hlen2⟩ := ih h1 h' hok
      have hsub1 : ∀ y, (childrenOf h1 y).Sublist (childrenOf h y) := by
        intro y
        by_cases hy : y = id
        · subst hy
          rw [hch1]
          exact List.erase_sublist c _
        · rw [show childrenOf h1 y = childrenOf h y from by
            unfold childrenOf; rw [hne1 y hy]]
      refine ⟨?_, ?_, ?_, ?_, ?_, ?_, hlen2.trans hlen1⟩
      · intro x
        have h1eq := hcount x
        rw [hch1, List.count_erase] at h1eq
        rw [List.count_cons]
        by_cases hcx : (c == x) = true
        · have hc : c = x := beq_iff_eq.mp hcx
          subst hc
          have hpos : 0 < List.count c (childrenOf h id) :=
            List.count_pos_iff.mpr hcmem
          simp only [hcx] at h1eq ⊢
          simp at h1eq ⊢
          omega
        · have hcf : (c == x) = false := by
            cases hb : (c == x)
            · rfl
            · exact absurd hb hcx
          simp only [hcf] at h1eq ⊢
          simp at h1eq ⊢
          omega
      · intro y hy
        rw [hne2 y hy, hne1 y hy]
      · intro y
        rw [htag2 y, htag1 y]
      · intro y
        rw [htxt2 y, htxt1 y]
      · intro y k
        rw [hattr2 y k, hattr1 y k]
      · intro y
        exact (hsub2 y).trans (hsub1 y)

/-- What the text-overwriting pass does: only text fields change,
each listed valid element ends up reading the replacement, and
objects off the list are untouched. -/
theorem setTexts_spec (s : String) :
    ∀ (l : List Nat) (h : Heap),
      (∀ y, tagOf (setTexts s l h) y = tagOf h y)
      ∧ (∀ y, childrenOf (setTexts s l h) y = childrenOf h y)
      ∧ (∀ y k, attrOf (setTexts s l h) y k = attrOf h y k)
      ∧ (setTexts s l h).length = h.length
      ∧ (∀ y, textOf (setTexts s l h) y = textOf h y
          ∨ textOf (setTexts s l h) y = some s)
      ∧ (∀ y ∈ l, y < h.length → textOf (setTexts s l h) y = some s)
      ∧ (∀ y, y ∉ l → getObj (setTexts s l h) y = getObj h y) := by
  intro l
  induction l with
  | nil =>
    intro h
    exact ⟨fun y => rfl, fun y => rfl, fun y k => rfl, rfl, fun y => Or.inl rfl,
      fun y hy => absurd hy (List.not_mem_nil y), fun y _ => rfl⟩
  | cons t ts ih =>
    intro h
    obtain ⟨htag, hch, hattr, hlen, htxt, hset, hfr⟩ := ih (setText h t s)
    have hstep : setTexts s (t :: ts) h = setTexts s ts (setText h t s) := rfl
    refine ⟨?_, ?_, ?_, ?_, ?_, ?_, ?_⟩
    · intro y
      rw [hstep, htag y, setText_tagOf]
    · intro y
      rw [hstep, hch y, setText_childrenOf]
    · intro y k
      rw [hstep, hattr y k, setText_attrOf]
    · rw [hstep, hlen, setText_length]
    · intro y
      rw [hstep]
      rcases htxt y with hy | hy
      · rw [hy]
        exact setText_textOf h t s y
      · exact Or.inr hy
    · intro y hy hyv
      rw [hstep]
      rcases List.mem_cons.mp hy with rfl | hyts
      · by_cases hts : y ∈ ts
        · exact hset y hts (by rw [setText_length]; exact hyv)
        · rw [show textOf (setTexts s ts (setText h y s)) y
              = textOf (setText h y s) y from by
            unfold textOf; rw [hfr y hts]]
          exact setText_textOf_self h y s hyv
      · exact hset y hyts (by rw [setText_length]; exact hyv)
    · intro y hy
      have hyt : y ≠ t := fun hc => hy (hc ▸ List.mem_cons_self t ts)
      have hyts : y ∉ ts := fun hc => hy (List.mem_cons_of_mem t hc)
      rw [hstep, hfr y hyts, setText_getObj_ne h t s y hyt]

theorem mutStep_refl (repl : String) (h : Heap) : MutStep repl h h :=
  ⟨rfl, fun _ => rfl, fun _ _ => rfl, fun _ => List.Sublist.refl _,
    fun _ => Or.inl rfl⟩

theorem mutStep_trans (repl : String) (h1 h2 h3 : Heap)
    (ha : MutStep repl h1 h2) (hb : MutStep repl h2 h3) :
    MutStep repl h1 h3 := by
  obtain ⟨al, a2, a3, a4, a5⟩ := ha
  obtain ⟨bl, b2, b3, b4, b5⟩ := hb
  refine ⟨bl.trans al, fun x => (b2 x).trans (a2 x),
    fun x k => (b3 x k).trans (a3 x k), fun x => (b4 x).trans (a4 x), fun x => ?_⟩
  rcases b5 x with hb | hb
  · rw [hb]
    exact a5 x
  · exact Or.inr hb

/-- A successful `replace_text_in_run_or_paragraph` is a `MutStep`. -/
theorem replace_text_mutStep (h : Heap) (cont : Nat) (repl : String) (h' : Heap)
    (hok : replace_text_in_run_or_paragraph h cont repl = .ok h') :
    MutStep repl h h' := by
  unfold replace_text_in_run_or_paragraph at hok
  cases hr1 : (if tagOf h cont == wR
      then removeFound cont (iterTag h cont wRPr) h else .ok h) with
  | error e =>
    rw [hr1] at hok
    cases hok
  | ok h1 =>
    rw [hr1] at hok
    replace hok : (match (if tagOf h1 cont == wP
        then removeFound cont (iterTag h1 cont wPPr) h1 else .ok h1) with
      | .error e => (.error e : Except PyErr Heap)
      | .ok h2 => .ok (setTexts repl (iterTag h2 cont wT) h2)) = .ok h' := hok
    cases hr2 : (if tagOf h1 cont == wP
        then removeFound cont (iterTag h1 cont wPPr) h1 else .ok h1) with
    | error e =>
      rw [hr2] at hok
      cases hok
    | ok h2 =>
      rw [hr2] at hok
      replace hok : Except.ok (setTexts repl (iterTag h2 cont wT) h2)
          = Except.ok h' := hok
      injection hok with hok
      have m1 : MutStep repl h h1 := by
        by_cases hc : (tagOf h cont == wR) = true
        · rw [if_pos hc] at hr1
          obtain ⟨_, _, ht, hx, ha, hs, hl⟩ := removeFound_ok cont _ h h1 hr1
          exact ⟨hl, ht, ha, hs, fun x => Or.inl (hx x)⟩
        · rw [if_neg hc] at hr1
          injection hr1 with hr1
          subst hr1
          exact mutStep_refl repl h
      have m2 : MutStep repl h1 h2 := by
        by_cases hc : (tagOf h1 cont == wP) = true
        · rw [if_pos hc] at hr2
          obtain ⟨_, _, ht, hx, ha, hs, hl⟩ := removeFound_ok cont _ h1 h2 hr2
          exact ⟨hl, ht, ha, hs, fun x => Or.inl (hx x)⟩
        · rw [if_neg hc] at hr2
          injection hr2 with hr2
          subst hr2
          exact mutStep_refl repl h1
      have m3 : MutStep repl h2 h' := by
        subst hok
        obtain ⟨htag, hch, hattr, hlen, htxt, _, _⟩ :=
          setTexts_spec repl (iterTag h2 cont wT) h2
        exact ⟨hlen, htag, hattr, fun x => (hch x) ▸ List.Sublist.refl _, htxt⟩
      exact mutStep_trans repl h h2 h' (mutStep_trans repl h h1 h2 m1 m2) m3

/-- Children-wise sublists induce traversal subsets. -/
theorem iterFrom_subset (h h' : Heap)
    (hch : ∀ x, (childrenOf h' x).Sublist (childrenOf h x)) :
    ∀ fuel id, iterFrom h' fuel id ⊆ iterFrom h fuel id := by
  intro fuel
  induction fuel with
  | zero =>
    intro id x hx
    simp [iterFrom] at hx
  | succ n ih =>
    intro id x hx
    rw [iterFrom] at hx ⊢
    rcases List.mem_cons.mp hx with rfl | hx'
    · exact List.mem_cons_self _ _
    · rcases List.mem_flatMap.mp hx' with ⟨c, hc, hxc⟩
      exact List.mem_cons_of_mem _
        (List.mem_flatMap.mpr ⟨c, (hch id).subset hc, ih c hxc⟩)

/-- Pointwise equal children lists give equal traversals. -/
theorem iterFrom_congr (h h' : Heap)
    (hch : ∀ x, childrenOf h' x = childrenOf h x) :
    ∀ fuel id, iterFrom h' fuel id = iterFrom h fuel id := by
  intro fuel
  induction fuel with
  | zero => intro id; rfl
  | succ n ih =>
    intro id
    rw [iterFrom, iterFrom, hch id]
    congr 1
    congr 1
    funext c
    exact ih c

/-- Equal children, tags and size give equal tag traversals. -/
theorem iterTag_congr (h h' : Heap)
    (hch : ∀ x, childrenOf h' x = childrenOf h x)
    (htag : ∀ x, tagOf h' x = tagOf h x)
    (hlen : h'.length = h.length) :
    ∀ id t, iterTag h' id t = iterTag h id t := by
  intro id t
  unfold iterTag
  rw [hlen, iterFrom_congr h h' hch]
  exact List.filter_congr (fun x _ => by rw [htag x])

/-- Under a `MutStep`, membership in a tag traversal transfers back
to the pre-state. -/
theorem iterTag_mem_of_mutStep (repl : String) (h h' : Heap) (cont : Nat)
    (t : String) (hm : MutStep repl h h') :
    ∀ x ∈ iterTag h' cont t, x ∈ iterTag h cont t := by
  obtain ⟨hlen, htag, _, hsub, _⟩ := hm
  intro x hx
  rw [iterTag, List.mem_filter] at hx ⊢
  obtain ⟨hx1, hx2⟩ := hx
  rw [hlen] at hx1
  refine ⟨iterFrom_subset h h' hsub h.length cont hx1, ?_⟩
  rw [htag x] at hx2
  exact hx2

/-- `MutStep`s preserve the redacted-container property: later
iterations of the redaction loop only shrink children lists and
overwrite more texts with the same replacement. -/
theorem redacted_mono (repl : String) (h h' : Heap) (cont : Nat)
    (hm : MutStep repl h h') (hr : Redacted repl h cont) :
    Redacted repl h' cont := by
  obtain ⟨hrR, hrP, hrT⟩ := hr
  obtain ⟨hlen, htag, hattr, hsub, htxt⟩ := hm
  refine ⟨?_, ?_, ?_⟩
  · intro htg ch hch
    rw [htag] at htg
    rw [htag ch]
    exact hrR htg ch ((hsub cont).subset hch)
  · intro htg ch hch
    rw [htag] at htg
    rw [htag ch]
    exact hrP htg ch ((hsub cont).subset hch)
  · intro t ht
    have hmem := iterTag_mem_of_mutStep repl h h' cont wT
      ⟨hlen, htag, hattr, hsub, htxt⟩ t ht
    rcases htxt t with he | he
    · rw [he]
      exact hrT t hmem
    · exact he

/-- Every occurrence among a list of roots reappears in the flattened
traversals of those roots. -/
theorem count_le_flatMap_iter (h : Heap) (x : Nat) (n : Nat) :
    ∀ l : List Nat,
      List.count x l ≤ List.count x (l.flatMap (iterFrom h (n + 1))) := by
  intro l
  induction l with
  | nil => simp
  | cons c cs ih =>
    rw [List.flatMap_cons, List.count_append, List.count_cons]
    have hc : (if (c == x) = true then 1 else 0)
        ≤ List.count x (iterFrom h (n + 1) c) := by
      by_cases hcx : (c == x) = true
      · have hce : c = x := beq_iff_eq.mp hcx
        subst hce
        rw [iterFrom, List.count_cons]
        simp
      · simp [hcx]
    omega

/-- A direct child of `cont` with tag `t` is found at least as often
by `elem.iter(t)` as it occurs among the children, whenever the child
and container differ (in particular when their tags differ). -/
theorem count_children_le_iterTag (h : Heap) (cont x : Nat) (t : String)
    (hx : tagOf h x = t) (hcont : tagOf h cont ≠ t) (ht : t ≠ "") :
    List.count x (childrenOf h cont) ≤ List.count x (iterTag h cont t) := by
  have hxv : x < h.length := tagOf_valid h x t hx ht
  have hne : x ≠ cont := fun hc => hcont (hc ▸ hx)
  have hfil : List.count x (iterTag h cont t)
      = List.count x (iterFrom h h.length cont) := by
    unfold iterTag
    exact List.count_filter (by simp [hx])
  rw [hfil]
  cases hl : h.length with
  | zero => omega
  | succ n =>
    cases n with
    | zero =>
      have hx0 : x = 0 := by omega
      have hcont0 : cont ≠ 0 := by
        intro hc
        exact hne (hc ▸ hx0 ▸ rfl)
      have hchempty : childrenOf h cont = [] := by
        unfold childrenOf getObj
        rw [List.getElem?_eq_none (by omega)]
        rfl
      rw [hchempty]
      simp
    | succ m =>
      rw [iterFrom, List.count_cons]
      have hbase := count_le_flatMap_iter h x m (childrenOf h cont)
      have hb : (cont == x) = false := by
        cases hbb : (cont == x)
        · rfl
        · exact absurd (beq_iff_eq.mp hbb) (Ne.symm hne)
      simp only [hb]
      simp
      omega

/-- A successful `replace_text_in_run_or_paragraph` establishes the
redacted-container property for its container: the removal pass can
only succeed when every found override node was a direct child still
present, which forces every direct override child to have been
removed; the text pass overwrites every `w:t` of the subtree. -/
theorem replace_text_redacted (h : Heap) (cont : Nat) (repl : String) (h' : Heap)
    (hok : replace_text_in_run_or_paragraph h cont repl = .ok h') :
    Redacted repl h' cont := by
  unfold replace_text_in_run_or_paragraph at hok
  cases hr1 : (if tagOf h cont == wR
      then removeFound cont (iterTag h cont wRPr) h else .ok h) with
  | error e =>
    rw [hr1] at hok
    cases hok
  | ok h1 =>
    rw [hr1] at hok
    replace hok : (match (if tagOf h1 cont == wP
        then removeFound cont (iterTag h1 cont wPPr) h1 else .ok h1) with
      | .error e => (.error e : Except PyErr Heap)
      | .ok h2 => .ok (setTexts repl (iterTag h2 cont wT) h2)) = .ok h' := hok
    cases hr2 : (if tagOf h1 cont == wP
        then removeFound cont (iterTag h1 cont wPPr) h1 else .ok h1) with
    | error e =>
      rw [hr2] at hok
      cases hok
    | ok h2 =>
      rw [hr2] at hok
      replace hok : Except.ok (setTexts repl (iterTag h2 cont wT) h2)
          = Except.ok h' := hok
      injection hok with hok
      subst hok
      have s1 : (∀ y, tagOf h1 y = tagOf h y)
          ∧ (∀ y, (childrenOf h1 y).Sublist (childrenOf h y))
          ∧ h1.length = h.length
          ∧ (tagOf h cont = wR →
              ∀ ch ∈ childrenOf h1 cont, tagOf h ch ≠ wRPr) := by
        by_cases hc : (tagOf h cont == wR) = true
        · rw [if_pos hc] at hr1
          obtain ⟨hcount, hne, htag, htxt, hattr, hsub, hlen⟩ :=
            removeFound_ok cont _ h h1 hr1
          refine ⟨htag, hsub, hlen, fun _ ch hch hchtag => ?_⟩
          have hge1 : 0 < List.count ch (childrenOf h1 cont) :=
            List.count_pos_iff.mpr hch
          have hcr : tagOf h cont = wR := beq_iff_eq.mp hc
          have hle := count_children_le_iterTag h cont ch wRPr hchtag
            (by rw [hcr]; decide) (by decide)
          have heq := hcount ch
          omega
        · rw [if_neg hc] at hr1
          injection hr1 with hr1
          subst hr1
          rw [beq_iff_eq] at hc
          exact ⟨fun y => rfl, fun y => List.Sublist.refl _, rfl,
            fun hw => absurd hw hc⟩
      have s2 : (∀ y, tagOf h2 y = tagOf h1 y)
          ∧ (∀ y, (childrenOf h2 y).Sublist (childrenOf h1 y))
          ∧ h2.length = h1.length
          ∧ (tagOf h1 cont = wP →
              ∀ ch ∈ childrenOf h2 cont, tagOf h1 ch ≠ wPPr) := by
        by_cases hc : (tagOf h1 cont == wP) = true
        · rw [if_pos hc] at hr2
          obtain ⟨hcount, hne, htag, htxt, hattr, hsub, hlen⟩ :=
            removeFound_ok cont _ h1 h2 hr2
          refine ⟨htag, hsub, hlen, fun _ ch hch hchtag => ?_⟩
          have hge1 : 0 < List.count ch (childrenOf h2 cont) :=
            List.count_pos_iff.mpr hch
          have hcr : tagOf h1 cont = wP := beq_iff_eq.mp hc
          have hle := count_children_le_iterTag h1 cont ch wPPr hchtag
            (by rw [hcr]; decide) (by decide)
          have heq := hcount ch
          omega
        · rw [if_neg hc] at hr2
          injection hr2 with hr2
          subst hr2
          rw [beq_iff_eq] at hc
          exact ⟨fun y => rfl, fun y => List.Sublist.refl _, rfl,
            fun hw => absurd hw hc⟩
      obtain ⟨htag1, hsub1, hlen1, hrem1⟩ := s1
      obtain ⟨htag2, hsub2, hlen2, hrem2⟩ := s2
      obtain ⟨htag3, hch3, hattr3, hlen3, htxt3, hsetm3, hfr3⟩ :=
        setTexts_spec repl (iterTag h2 cont wT) h2
      refine ⟨?_, ?_, ?_⟩
      · intro htw ch hch
        rw [htag3, htag2, htag1] at htw
        rw [hch3] at hch
        rw [htag3 ch, htag2 ch]
        have hch1 : ch ∈ childrenOf h1 cont := (hsub2 cont).subset hch
        intro hcontra
        exact hrem1 htw ch hch1 (by rw [← htag1 ch]; exact hcontra)
      · intro htw ch hch
        rw [htag3, htag2] at htw
        rw [hch3] at hch
        rw [htag3 ch, htag2 ch]
        exact hrem2 htw ch hch
      · intro t ht
        have hiter : iterTag (setTexts repl (iterTag h2 cont wT) h2) cont wT
            = iterTag h2 cont wT :=
          iterTag_congr h2 _ hch3 htag3 hlen3 cont wT
        rw [hiter] at ht
        have htg : tagOf h2 t = wT := by
          have := (List.mem_filter.mp ht).2
          exact beq_iff_eq.mp this
        exact hsetm3 t ht (tagOf_valid h2 t wT htg (by decide))

/-- Resolution consults only the parent map and element tags, so any
tag-preserving mutation leaves it unchanged. -/
theorem findRunOrParagraph_congr (pm : List (Nat × Nat)) (h h' : Heap)
    (htag : ∀ x, tagOf h' x = tagOf h x) :
    ∀ fuel id,
      findRunOrParagraph pm h' fuel id = findRunOrParagraph pm h fuel id := by
  intro fuel
  induction fuel with
  | zero => intro id; rfl
  | succ n ih =>
    intro id
    rw [findRunOrParagraph, findRunOrParagraph]
    cases pmLookup pm id with
    | none => rfl
    | some par =>
      show (if (tagOf h' par == wR || tagOf h' par == wP) = true then some par
          else findRunOrParagraph pm h' n par)
        = (if (tagOf h par == wR || tagOf h par == wP) = true then some par
          else findRunOrParagraph pm h n par)
      rw [htag par]
      by_cases hc : (tagOf h par == wR || tagOf h par == wP) = true
      · rw [if_pos hc, if_pos hc]
      · rw [if_neg hc, if_neg hc, ih]

theorem get_run_or_paragraph_congr (pm : List (Nat × Nat)) (h h' : Heap)
    (htag : ∀ x, tagOf h' x = tagOf h x) (hl : Nat) :
    get_run_or_paragraph_for_highlight pm h' hl
      = get_run_or_paragraph_for_highlight pm h hl :=
  findRunOrParagraph_congr pm h h' htag (pm.length + 1) hl

/-- A successful redaction loop is a `MutStep`. -/
theorem redactLoop_mutStep (pm : List (Nat × Nat)) (repl : String) :
    ∀ (l : List Nat) (h : Heap) (n : Nat) (h' : Heap) (k : Nat),
      redactLoop pm repl l h n = .ok (h', k) → MutStep repl h h' := by
  intro l
  induction l with
  | nil =>
    intro h n h' k hok
    unfold redactLoop at hok
    injection hok with hok
    injection hok with hh hk
    subst hh
    exact mutStep_refl repl h
  | cons hl0 rest ih =>
    intro h n h' k hok
    unfold redactLoop at hok
    cases hres : get_run_or_paragraph_for_highlight pm h hl0 with
    | none =>
      rw [hres] at hok
      exact ih h (n + 1) h' k hok
    | some run =>
      rw [hres] at hok
      replace hok : (replace_text_in_run_or_paragraph h run repl >>= fun h1 =>
          redactLoop pm repl rest h1 n) = Except.ok (h', k) := hok
      cases hrep : replace_text_in_run_or_paragraph h run repl with
      | error e =>
        rw [hrep, except_bind_error] at hok
        cases hok
      | ok h1 =>
        rw [hrep, except_bind_ok] at hok
        exact mutStep_trans repl h h1 h'
          (replace_text_mutStep h run repl h1 hrep) (ih h1 n h' k hok)

/-- Every resolved container of the highlight snapshot ends the
redaction loop in the redacted state: its own iteration establishes
the property and every later iteration preserves it. -/
theorem redactLoop_redacts (pm : List (Nat × Nat)) (repl : String) :
    ∀ (l : List Nat) (h : Heap) (n : Nat) (h' : Heap) (k : Nat),
      redactLoop pm repl l h n = .ok (h', k) →
      ∀ hl ∈ l, ∀ cont,
        get_run_or_paragraph_for_highlight pm h hl = some cont →
        Redacted repl h' cont := by
  intro l
  induction l with
  | nil =>
    intro h n h' k hok hl hm
    cases hm
  | cons hl0 rest ih =>
    intro h n h' k hok hl hm cont hres
    unfold redactLoop at hok
    cases hres0 : get_run_or_paragraph_for_highlight pm h hl0 with
    | none =>
      rw [hres0] at hok
      rcases List.mem_cons.mp hm with rfl | hmr
      · rw [hres0] at hres
        cases hres
      · exact ih h (n + 1) h' k hok hl hmr cont hres
    | some run =>
      rw [hres0] at hok
      replace hok : (replace_text_in_run_or_paragraph h run repl >>= fun h1 =>
          redactLoop pm repl rest h1 n) = Except.ok (h', k) := hok
      cases hrep : replace_text_in_run_or_paragraph h run repl with
      | error e =>
        rw [hrep, except_bind_error] at hok
        cases hok
      | ok h1 =>
        rw [hrep, except_bind_ok] at hok
        have hm1 : MutStep repl h h1 := replace_text_mutStep h run repl h1 hrep
        rcases List.mem_cons.mp hm with rfl | hmr
        · rw [hres0] at hres
          injection hres with hres
          rw [← hres]
          exact redacted_mono repl h1 h' run
            (redactLoop_mutStep pm repl rest h1 n h' k hok)
            (replace_text_redacted h run repl h1 hrep)
        · have hres1 : get_run_or_paragraph_for_highlight pm h1 hl = some cont := by
            rw [get_run_or_paragraph_congr pm h h1 hm1.2.1 hl]
            exact hres
          exact ih h1 n h' k hok hl hmr cont hres1

/-- Claim C2: after a completed `redact(c, R)`, every color-`c`
highlight whose enclosing run-or-paragraph container resolved has had
that container's formatting-override children removed (`w:rPr` for a
run, `w:pPr` for a paragraph — the source removes exactly the node
kind matching the container's tag), and every `w:t` text leaf in the
container's subtree reads exactly `R`.  Resolution is stated against
the pre-call tree; redaction never changes tags, so it coincides with
the resolution each loop iteration performs. -/
theorem c2_redaction_completeness (h : Heap) (root : Nat)
    (pm : List (Nat × Nat)) (c repl : String) (h' : Heap) (k : Nat)
    (hls : List Nat) (hget : get_highlights h root (some c) = .ok hls)
    (hok : redact h root pm c repl = .ok (h', k)) :
    ∀ hl ∈ hls, ∀ cont,
      get_run_or_paragraph_for_highlight pm h hl = some cont →
      (tagOf h' cont = wR → ∀ ch ∈ childrenOf h' cont, tagOf h' ch ≠ wRPr)
      ∧ (tagOf h' cont = wP → ∀ ch ∈ childrenOf h' cont, tagOf h' ch ≠ wPPr)
      ∧ (∀ t ∈ iterTag h' cont wT, textOf h' t = some repl) := by
  intro hl hm cont hres
  unfold redact at hok
  rw [hget, except_bind_ok] at hok
  exact redactLoop_redacts pm repl hls h 0 h' k hok hl hm cont hres

/-- Witness for `c2_redaction_completeness` on the two-run document:
redacting yellow with `[X]` strips run 1 of its `w:rPr` child and
rewrites its text leaf 3. -/
theorem c2_redaction_completeness_witness :
    redact twoRunDoc 0 twoRunPm "yellow" "[X]" = .ok (twoRunDocAfter, 0)
    ∧ (∀ ch ∈ childrenOf twoRunDocAfter 1, tagOf twoRunDocAfter ch ≠ wRPr)
    ∧ textOf twoRunDocAfter 3 = some "[X]" := by
  have hth := c2_redaction_completeness twoRunDoc 0 twoRunPm "yellow" "[X]"
    twoRunDocAfter 0 [5] (by decide) (by decide) 5 (by decide) 1 (by decide)
  refine ⟨by decide, ?_, ?_⟩
  · intro ch hch
    exact hth.1 (by decide) ch hch
  · exact hth.2.2 3 (by decide)

theorem self_mem_iterFrom (h : Heap) (id n : Nat) :
    id ∈ iterFrom h (n + 1) id := by
  rw [iterFrom]
  exact List.mem_cons_self _ _

/-- A successful `replace_text_in_run_or_paragraph` only touches
objects inside the container's pre-state subtree. -/
theorem replace_text_frame (h : Heap) (cont : Nat) (repl : String) (h' : Heap)
    (hok : replace_text_in_run_or_paragraph h cont repl = .ok h') :
    ∀ x, x ∉ iterFrom h h.length cont → getObj h' x = getObj h x := by
  unfold replace_text_in_run_or_paragraph at hok
  cases hr1 : (if tagOf h cont == wR
      then removeFound cont (iterTag h cont wRPr) h else .ok h) with
  | error e =>
    rw [hr1] at hok
    cases hok
  | ok h1 =>
    rw [hr1] at hok
    replace hok : (match (if tagOf h1 cont == wP
        then removeFound cont (iterTag h1 cont wPPr) h1 else .ok h1) with
      | .error e => (.error e : Except PyErr Heap)
      | .ok h2 => .ok (setTexts repl (iterTag h2 cont wT) h2)) = .ok h' := hok
    cases hr2 : (if tagOf h1 cont == wP
        then removeFound cont (iterTag h1 cont wPPr) h1 else .ok h1) with
    | error e =>
      rw [hr2] at hok
      cases hok
    | ok h2 =>
      rw [hr2] at hok
      replace hok : Except.ok (setTexts repl (iterTag h2 cont wT) h2)
          = Except.ok h' := hok
      injection hok with hok
      subst hok
      have s1 : (∀ y, y ≠ cont → getObj h1 y = getObj h y)
          ∧ (∀ y, (childrenOf h1 y).Sublist (childrenOf h y))
          ∧ h1.length = h.length := by
        by_cases hc : (tagOf h cont == wR) = true
        · rw [if_pos hc] at hr1
          obtain ⟨_, hne, _, _, _, hsub, hlen⟩ := removeFound_ok cont _ h h1 hr1
          exact ⟨hne, hsub, hlen⟩
        · rw [if_neg hc] at hr1
          injection hr1 with hr1
          subst hr1
          exact ⟨fun y _ => rfl, fun y => List.Sublist.refl _, rfl⟩
      have s2 : (∀ y, y ≠ cont → getObj h2 y = getObj h1 y)
          ∧ (∀ y, (childrenOf h2 y).Sublist (childrenOf h1 y))
          ∧ h2.length = h1.length := by
        by_cases hc : (tagOf h1 cont == wP) = true
        · rw [if_pos hc] at hr2
          obtain ⟨_, hne, _, _, _, hsub, hlen⟩ := removeFound_ok cont _ h1 h2 hr2
          exact ⟨hne, hsub, hlen⟩
        · rw [if_neg hc] at hr2
          injection hr2 with hr2
          subst hr2
          exact ⟨fun y _ => rfl, fun y => List.Sublist.refl _, rfl⟩
      obtain ⟨hne1, hsub1, hlen1⟩ := s1
      obtain ⟨hne2, hsub2, hlen2⟩ := s2
      obtain ⟨_, _, _, hlen3, _, _, hfr3⟩ :=
        setTexts_spec repl (iterTag h2 cont wT) h2
      intro x hx
      by_cases hxv : x < h.length
      · have hcm : cont ∈ iterFrom h h.length cont := by
          cases hl : h.length with
          | zero => omega
          | succ n => exact self_mem_iterFrom h cont n
        have hxc : x ≠ cont := fun hc => hx (hc ▸ hcm)
        have hnotin : x ∉ iterTag h2 cont wT := by
          intro hmem
          apply hx
          have hsub12 : ∀ y, (childrenOf h2 y).Sublist (childrenOf h y) :=
            fun y => (hsub2 y).trans (hsub1 y)
          have h2len : h2.length = h.length := hlen2.trans hlen1
          have hmem' : x ∈ iterFrom h2 h.length cont := by
            have hbase := (List.mem_filter.mp hmem).1
            rw [h2len] at hbase
            exact hbase
          exact iterFrom_subset h h2 hsub12 h.length cont hmem'
        rw [hfr3 x hnotin, hne2 x hxc, hne1 x hxc]
      · have hlenEq : (setTexts repl (iterTag h2 cont wT) h2).length
            = h.length := by
          rw [hlen3, hlen2, hlen1]
        unfold getObj
        rw [List.getElem?_eq_none (by omega), List.getElem?_eq_none (by omega)]

/-- A successful redaction loop only touches objects inside the
pre-state subtrees of the containers it resolves. -/
theorem redactLoop_frame (pm : List (Nat × Nat)) (repl : String) :
    ∀ (l : List Nat) (h : Heap) (n : Nat) (h' : Heap) (k : Nat),
      redactLoop pm repl l h n = .ok (h', k) →
      ∀ x, (∀ hl ∈ l, ∀ cont,
          get_run_or_paragraph_for_highlight pm h hl = some cont →
          x ∉ iterFrom h h.length cont) →
        getObj h' x = getObj h x := by
  intro l
  induction l with
  | nil =>
    intro h n h' k hok x hout
    unfold redactLoop at hok
    injection hok with hok
    injection hok with hh hk
    subst hh
    rfl
  | cons hl0 rest ih =>
    intro h n h' k hok x hout
    unfold redactLoop at hok
    cases hres0 : get_run_or_paragraph_for_highlight pm h hl0 with
    | none =>
      rw [hres0] at hok
      exact ih h (n + 1) h' k hok x
        (fun hl hm cont hres => hout hl (List.mem_cons_of_mem _ hm) cont hres)
    | some run =>
      rw [hres0] at hok
      replace hok : (replace_text_in_run_or_paragraph h run repl >>= fun h1 =>
          redactLoop pm repl rest h1 n) = Except.ok (h', k) := hok
      cases hrep : replace_text_in_run_or_paragraph h run repl with
      | error e =>
        rw [hrep, except_bind_error] at hok
        cases hok
      | ok h1 =>
        rw [hrep, except_bind_ok] at hok
        have hm1 : MutStep repl h h1 := replace_text_mutStep h run repl h1 hrep
        have hx1 : getObj h1 x = getObj h x :=
          replace_text_frame h run repl h1 hrep x
            (hout hl0 (List.mem_cons_self _ _) run hres0)
        have hx2 : getObj h' x = getObj h1 x := by
          apply ih h1 n h' k hok x
          intro hl hm cont hres
          have hres' : get_run_or_paragraph_for_highlight pm h hl = some cont := by
            rw [← get_run_or_paragraph_congr pm h h1 hm1.2.1 hl]
            exact hres
          have hout' := hout hl (List.mem_cons_of_mem _ hm) cont hres'
          intro hmem
          apply hout'
          have h1len : h1.length = h.length := hm1.1
          rw [h1len] at hmem
          exact iterFrom_subset h h1 hm1.2.2.2.1 h.length cont hmem
        exact hx2.trans hx1

/-- Claim C3, counterexample to the claim as stated: in `overlapDoc`
the highlight 6 has color green, different from the redacted yellow,
and its own enclosing run is 4 with the text leaf 7 reading
`secret2`; yet after `redact('yellow', 'X')` that leaf reads `X` —
the yellow highlight resolved to the enclosing paragraph 0 and the
paragraph redaction overwrote every text leaf beneath it.  So a
highlight of another color is not always structurally and textually
unchanged. -/
theorem c3_counterexample :
    attrOf overlapDoc 6 wVal = some "green"
    ∧ attrOf overlapDoc 3 wVal = some "yellow"
    ∧ get_run_or_paragraph_for_highlight overlapPm overlapDoc 6 = some 4
    ∧ 7 ∈ childrenOf overlapDoc 4
    ∧ textOf overlapDoc 7 = some "secret2"
    ∧ redact overlapDoc 0 overlapPm "yellow" "X" = .ok (overlapDocAfter, 0)
    ∧ textOf overlapDocAfter 7 = some "X" :=
  ⟨rfl, rfl, by decide, by decide, rfl, by decide, rfl⟩

/-- Claim C3 (amended): after a completed `redact(c, R)`, every
element that lies outside the subtree of every container resolved
for a color-`c` highlight is exactly unchanged — tag, attributes,
text, tail and children.  In particular a highlight marker of
another color, its formatting-override ancestor and the text leaves
of its own run/paragraph are untouched whenever they lie outside
every resolved container; for elements inside a resolved container
(the counterexample's situation) the claim fails. -/
theorem c3_noninterference_outside (h : Heap) (root : Nat)
    (pm : List (Nat × Nat)) (c repl : String) (h' : Heap) (k : Nat)
    (hls : List Nat) (hget : get_highlights h root (some c) = .ok hls)
    (hok : redact h root pm c repl = .ok (h', k)) (x : Nat)
    (hout : ∀ hl ∈ hls, ∀ cont,
      get_run_or_paragraph_for_highlight pm h hl = some cont →
      x ∉ iterFrom h h.length cont) :
    getObj h' x = getObj h x := by
  unfold redact at hok
  rw [hget, except_bind_ok] at hok
  exact redactLoop_frame pm repl hls h 0 h' k hok x hout

/-- Witness for `c3_noninterference_outside` on the two-run document:
the green run's text leaf (7) and highlight (8) are outside the
yellow container's subtree and survive unchanged. -/
theorem c3_noninterference_outside_witness :
    redact twoRunDoc 0 twoRunPm "yellow" "[X]" = .ok (twoRunDocAfter, 0)
    ∧ getObj twoRunDocAfter 7 = getObj twoRunDoc 7
    ∧ getObj twoRunDocAfter 8 = getObj twoRunDoc 8 := by
  have houtside : ∀ z : Nat, z ∉ iterFrom twoRunDoc twoRunDoc.length 1 →
      ∀ hl ∈ ([5] : List Nat), ∀ cont,
      get_run_or_paragraph_for_highlight twoRunPm twoRunDoc hl = some cont →
      z ∉ iterFrom twoRunDoc twoRunDoc.length cont := by
    intro z hz hl hm cont hres
    rw [List.mem_singleton] at hm
    subst hm
    have hcomp : get_run_or_paragraph_for_highlight twoRunPm twoRunDoc 5
        = some 1 := by decide
    rw [hcomp] at hres
    injection hres with hres
    subst hres
    exact hz
  refine ⟨by decide, ?_, ?_⟩
  · exact c3_noninterference_outside twoRunDoc 0 twoRunPm "yellow" "[X]"
      twoRunDocAfter 0 [5] (by decide) (by decide) 7 (houtside 7 (by decide))
  · exact c3_noninterference_outside twoRunDoc 0 twoRunPm "yellow" "[X]"
      twoRunDocAfter 0 [5] (by decide) (by decide) 8 (houtside 8 (by decide))

end Docx
